import Mathlib

/-!
# gosoap: the SOAP envelope encoder (`encode.go`)

A shallow embedding of `encode.go`: the reflective value encoder
`tokenData.recursiveEncode`, the envelope steps (`startEnvelope`, `startHeader`,
`endHeader`, `startBody`, `endBody`, `endEnvelope`) and `process.MarshalXML`.

Conventions of the embedding.

* A Go `string` is a byte sequence.  It is embedded as a Lean `String` in which
  every character stands for one byte; for ASCII text the two readings agree.
* A Go map is embedded as the list of its entries in the order in which the
  iteration at hand (`MapKeys`, `range`) yields them.  A statement quantified
  over all lists is therefore a statement about every iteration order.
* A run-time panic is embedded as `none`.
* The package variables `soapPrefix` and `customEnvelopeAttrs` are passed
  explicitly as a `Globals` value.
-/

namespace Gosoap

/-! ## Tokens (`encoding/xml`) -/

/-- Go `xml.Name`. -/
structure Name where
  Space : String
  Local : String
deriving DecidableEq, Repr

/-- Go `xml.Attr`. -/
structure Attr where
  Name : Name
  Value : String
deriving DecidableEq, Repr

/-- Go `xml.Token`, restricted to the three dynamic types `encode.go` produces:
`xml.StartElement`, `xml.EndElement` and `xml.CharData`. -/
inductive Token where
  | StartElement (Name : Name) (Attr : List Attr)
  | EndElement (Name : Name)
  | CharData (content : String)
deriving DecidableEq, Repr

/-- Go `tokenData`: the token accumulator. -/
structure tokenData where
  data : List Token
deriving DecidableEq, Repr

/-! ## Dynamic values as `reflect` sees them -/

/-- The signed integer kinds of `reflect`. -/
inductive IntKind where
  | Int | Int8 | Int16 | Int32 | Int64
deriving DecidableEq, Repr

/-- The unsigned integer kinds of `reflect` that `recursiveEncode` lists. -/
inductive UintKind where
  | Uint | Uint8 | Uint16 | Uint32 | Uint64
deriving DecidableEq, Repr

/-- A floating-point datum with its exact value: `mant * 2 ^ exp`, negated when
`neg` is set. -/
inductive GoFloat where
  | NaN
  | Inf (neg : Bool)
  | Finite (neg : Bool) (mant : Nat) (exp : Int)
deriving DecidableEq, Repr

/-- A map key as `reflect.Value.String` sees it: a key of kind `String`, or a
key of another kind, of which only the type name is printed. -/
inductive MapKey where
  | Str (s : String)
  | NonStr (typeName : String)
deriving DecidableEq, Repr

/-- Go `reflect.StructField`, restricted to what `recursiveEncode` reads: the
declared name, the result of `Tag.Get("xml")`, and whether the field is
exported (`Value.Interface` panics on a field that is not). -/
structure StructField where
  Name : String
  TagXml : String
  Exported : Bool
deriving DecidableEq, Repr

/-- A Go `interface{}` value, by the `reflect.Kind` of `reflect.ValueOf` of it.

* `Nil` is the nil interface (kind `Invalid`).
* `Map`, `Slice`, `Array`, `Struct` hold their elements boxed by `Interface()`.
* `String exact s`: kind `String`; `exact` says that the dynamic type is the
  predeclared `string` itself, which is what the assertion `.(string)` needs.
* `Other repr`: every remaining kind (pointer, channel, function, complex,
  uintptr, unsafe pointer); `repr` is what `fmt.Sprintf("%v", _)` prints. -/
inductive GoValue where
  | Nil
  | Map (entries : List (MapKey × GoValue))
  | Slice (elems : List GoValue)
  | Array (elems : List GoValue)
  | String (exact : Bool) (s : String)
  | Int (k : IntKind) (i : Int)
  | Uint (k : UintKind) (u : Nat)
  | Float32 (f : GoFloat)
  | Float64 (f : GoFloat)
  | Bool (b : Bool)
  | Struct (fields : List (StructField × GoValue))
  | Other (repr : String)

/-- Go `hm == nil` for an `interface{}`. -/
def isNil : GoValue → Bool
  | .Nil => true
  | _ => false

/-! ## Library functions used by the encoder (`strconv`, `strings`) -/

/-- Go `strconv.FormatUint(u, 10)`: the base-10 digits of `u`, most significant
first, `"0"` for zero. -/
def FormatUint (u : Nat) : String :=
  String.mk (Nat.toDigits 10 u)

/-- Go `strconv.FormatInt(i, 10)`: a `-` sign for a negative value, then the
digits of the magnitude. -/
def FormatInt (i : Int) : String :=
  if i < 0 then "-" ++ FormatUint i.natAbs else FormatUint i.natAbs

/-- Go `strconv.FormatBool`. -/
def FormatBool (b : Bool) : String :=
  if b then "true" else "false"

/-- The number of binary digits of `n`, for `n ≤ fuel`. -/
def bitLen : Nat → Nat → Nat
  | 0, _ => 0
  | fuel + 1, n => if n = 0 then 0 else bitLen fuel (n / 2) + 1

/-- Brings a positive `mant * 2 ^ exp` to the form the 64-bit format stores:
`2 ^ 52 ≤ mant < 2 ^ 53`, or `exp = -1074` for a denormal. -/
def normalize64 (mant : Nat) (exp : Int) : Nat × Int :=
  let bits := bitLen mant mant
  if 53 < bits then
    let s := bits - 53
    (mant / 2 ^ s, exp + (s : Int))
  else
    let s := min (53 - bits) (exp + 1074).toNat
    (mant * 2 ^ s, exp - (s : Int))

/-- Quotient rounded up. -/
def ceilDiv (a b : Nat) : Nat := (a + b - 1) / b

/-- The decimal `d * 10 ^ k` with `d ≥ 1` closest to the 64-bit float
`m * 2 ^ e` (of two equally close ones the even `d`) among those that round
back to it, when there is one with that `k`.  The float and the two midpoints to
its neighbours are taken in units of `2 ^ (e - 2)`; a midpoint itself rounds
back exactly when `m` is even. -/
def shortestAt (m : Nat) (e k : Int) : Option Nat :=
  let nx := 4 * m
  let nhi := 4 * m + 2
  let nlo := if m = 2 ^ 52 ∧ -1074 < e then 4 * m - 1 else 4 * m - 2
  let a := 2 ^ (e - 2).toNat * 10 ^ (-k).toNat
  let b := 10 ^ k.toNat * 2 ^ (2 - e).toNat
  let dmin := max 1 (if m % 2 = 0 then ceilDiv (nlo * a) b else nlo * a / b + 1)
  let dmax := if m % 2 = 0 then nhi * a / b else ceilDiv (nhi * a) b - 1
  let q := (2 * nx * a + b) / (2 * b)
  let near := if (2 * nx * a + b) % (2 * b) = 0 ∧ q % 2 = 1 then q - 1 else q
  if dmin ≤ dmax then some (max dmin (min dmax near)) else none

/-- Searches the decimal exponents `k, k - 1, ...` for the first one at which
`shortestAt` finds digits: the fewest digits that identify the float. -/
def shortestFrom (m : Nat) (e : Int) : Nat → Int → Option (Nat × Int)
  | 0, _ => none
  | fuel + 1, k =>
    match shortestAt m e k with
    | some d => some (d, k)
    | none => shortestFrom m e fuel (k - 1)

/-- The shortest decimal `(d, k)`, read `d * 10 ^ k`, that identifies the
positive 64-bit float `mant * 2 ^ exp`. -/
def shortest64 (mant : Nat) (exp : Int) : Option (Nat × Int) :=
  let (m, e) := normalize64 mant exp
  let top := max 0 ((bitLen (4 * m + 2) (4 * m + 2) : Int) + (e - 2))
  let bot := min 0 e
  shortestFrom m e ((top - bot).toNat + 1) top

/-- Fixed notation (`%f`) of the decimal `d * 10 ^ k`. -/
def fixedNotation (d : Nat) (k : Int) : String :=
  if 0 ≤ k then
    String.mk (Nat.toDigits 10 d ++ List.replicate k.toNat '0')
  else
    let p := 10 ^ (-k).toNat
    let frac := Nat.toDigits 10 (d % p)
    String.mk (Nat.toDigits 10 (d / p) ++ '.' ::
      (List.replicate ((-k).toNat - frac.length) '0' ++ frac))

/-- Go `strconv.FormatFloat(f, 'f', -1, 64)`: the fewest digits that identify
`f` among the 64-bit floats, in fixed notation. -/
def FormatFloat (f : GoFloat) : String :=
  match f with
  | .NaN => "NaN"
  | .Inf neg => if neg then "-Inf" else "+Inf"
  | .Finite neg mant exp =>
    (if neg then "-" else "") ++
      (if mant = 0 then "0"
       else match shortest64 mant exp with
         | some (d, k) => fixedNotation d k
         | none => "")

/-- Go `strings.ToLower` on the one-byte string holding `c`: an ASCII capital
becomes its small letter, another ASCII byte stays, and a byte from `0x80` on,
which is not valid UTF-8 on its own, becomes the three bytes of U+FFFD. -/
def ToLowerByte (c : Char) : String :=
  if c.toNat < 128 then
    if 65 ≤ c.toNat ∧ c.toNat ≤ 90 then String.mk [Char.ofNat (c.toNat + 32)]
    else String.mk [c]
  else String.mk [Char.ofNat 0xEF, Char.ofNat 0xBF, Char.ofNat 0xBD]

/-- Go `reflect.Value.String` of a map key: the string for kind `String`,
`"<T Value>"` for a key of any other type `T`. -/
def keyString : MapKey → String
  | .Str s => s
  | .NonStr typeName => "<" ++ typeName ++ " Value>"

/-! ## `tokenData.recursiveEncode` -/

/-- Go `append(tokens.data, ts...)` stored back into `tokens.data`. -/
def tokenData.append (tokens : tokenData) (ts : List Token) : tokenData :=
  { data := tokens.data ++ ts }

/-- The element name of a struct field in `recursiveEncode`: the `xml` tag,
or, when that is empty, `strings.ToLower(name[0:1]) + name[1:]` of the declared
name; `none` is the panic of `name[0:1]` on an empty name. -/
def fieldElementName (f : StructField) : Option String :=
  if f.TagXml = "" then
    match f.Name.data with
    | [] => none
    | c :: rest => some (ToLowerByte c ++ String.mk rest)
  else some f.TagXml

mutual

/-- Go `tokenData.recursiveEncode`; `none` is a panic. -/
def recursiveEncode (tokens : tokenData) : GoValue → Option tokenData
  | .Map entries => encodeMapKeys tokens entries
  | .Slice elems => encodeSlice tokens elems
  | .Array elems =>
    match elems with
    | [label, value] =>
      -- `label.(string)` panics unless the dynamic type is `string`
      match label with
      | .String true s =>
        let t : Name := { Space := "", Local := s }
        match recursiveEncode (tokens.append [.StartElement t []]) value with
        | some tokens1 => some (tokens1.append [.EndElement t])
        | none => none
      | _ => none
    | _ => some tokens
  | .String _ s => some (tokens.append [.CharData s])
  | .Int _ i => some (tokens.append [.CharData (FormatInt i)])
  | .Uint _ u => some (tokens.append [.CharData (FormatUint u)])
  | .Float32 f => some (tokens.append [.CharData (FormatFloat f)])
  | .Float64 f => some (tokens.append [.CharData (FormatFloat f)])
  | .Bool b => some (tokens.append [.CharData (FormatBool b)])
  | .Struct fields => encodeFields tokens fields
  -- default: `v.Interface()` panics on the zero `reflect.Value`
  | .Nil => none
  | .Other repr => some (tokens.append [.CharData repr])

/-- The loop `for _, key := range v.MapKeys()` of the `reflect.Map` case. -/
def encodeMapKeys (tokens : tokenData) : List (MapKey × GoValue) → Option tokenData
  | [] => some tokens
  | (key, value) :: rest =>
    let t : Name := { Space := "", Local := keyString key }
    match recursiveEncode (tokens.append [.StartElement t []]) value with
    | some tokens1 => encodeMapKeys (tokens1.append [.EndElement t]) rest
    | none => none

/-- The loop `for i := 0; i < v.Len(); i++` of the `reflect.Slice` case. -/
def encodeSlice (tokens : tokenData) : List GoValue → Option tokenData
  | [] => some tokens
  | x :: rest =>
    match recursiveEncode tokens x with
    | some tokens1 => encodeSlice tokens1 rest
    | none => none

/-- The loop `for i := 0; i < v.NumField(); i++` of the `reflect.Struct` case;
`field.Interface()` panics on a field that is not exported. -/
def encodeFields (tokens : tokenData) : List (StructField × GoValue) → Option tokenData
  | [] => some tokens
  | (field, value) :: rest =>
    match fieldElementName field with
    | none => none
    | some name =>
      let t : Name := { Space := "", Local := name }
      if field.Exported then
        match recursiveEncode (tokens.append [.StartElement t []]) value with
        | some tokens1 => encodeFields (tokens1.append [.EndElement t]) rest
        | none => none
      else none

end

/-! ## Package variables and the envelope steps -/

/-- The package variables of `encode.go`.  `customEnvelopeAttrs` is `none` for
the nil map and otherwise lists the entries in the order `range` yields them. -/
structure Globals where
  soapPrefix : String
  customEnvelopeAttrs : Option (List (String × String))
deriving DecidableEq, Repr

/-- The initial values of the package variables. -/
def Globals.init : Globals :=
  { soapPrefix := "soap", customEnvelopeAttrs := none }

/-- Go `SetCustomEnvelope`. -/
def SetCustomEnvelope (g : Globals) (pfx : String)
    (attrs : Option (List (String × String))) : Globals :=
  let g1 := { g with soapPrefix := pfx }
  match attrs with
  | some m => { g1 with customEnvelopeAttrs := some m }
  | none => g1

/-- Go `tokenData.startEnvelope`. -/
def startEnvelope (g : Globals) (tokens : tokenData) : tokenData :=
  let e : Name := { Space := "", Local := g.soapPrefix ++ ":Envelope" }
  let attr : List Attr :=
    match g.customEnvelopeAttrs with
    | none =>
      [ { Name := { Space := "", Local := "xmlns:xsi" },
          Value := "http://www.w3.org/2001/XMLSchema-instance" },
        { Name := { Space := "", Local := "xmlns:xsd" },
          Value := "http://www.w3.org/2001/XMLSchema" },
        { Name := { Space := "", Local := "xmlns:soap" },
          Value := "http://schemas.xmlsoap.org/soap/envelope/" } ]
    | some m =>
      m.foldl (fun attr kv =>
        attr ++ [{ Name := { Space := "", Local := kv.1 }, Value := kv.2 }]) []
  tokens.append [.StartElement e attr]

/-- Go `tokenData.endEnvelope`. -/
def endEnvelope (g : Globals) (tokens : tokenData) : tokenData :=
  let e : Name := { Space := "", Local := g.soapPrefix ++ ":Envelope" }
  tokens.append [.EndElement e]

/-- Go `tokenData.startHeader`. -/
def startHeader (g : Globals) (tokens : tokenData) (m n : String) : tokenData :=
  let h : Name := { Space := "", Local := g.soapPrefix ++ ":Header" }
  if m = "" ∨ n = "" then
    tokens.append [.StartElement h []]
  else
    let r : Token :=
      .StartElement { Space := "", Local := m }
        [{ Name := { Space := "", Local := "xmlns" }, Value := n }]
    tokens.append [.StartElement h [], r]

/-- Go `tokenData.endHeader`. -/
def endHeader (g : Globals) (tokens : tokenData) (m : String) : tokenData :=
  let h : Name := { Space := "", Local := g.soapPrefix ++ ":Header" }
  if m = "" then
    tokens.append [.EndElement h]
  else
    let r : Name := { Space := "", Local := m }
    tokens.append [.EndElement r, .EndElement h]

/-- Go `tokenData.startBody`: the accumulator after the call and the returned
error, `none` for `nil`. -/
def startBody (g : Globals) (tokens : tokenData) (m n : String) :
    tokenData × Option String :=
  let b : Name := { Space := "", Local := g.soapPrefix ++ ":Body" }
  if m = "" ∨ n = "" then
    (tokens, some "method or namespace is empty")
  else
    let r : Token :=
      .StartElement { Space := "", Local := m }
        [{ Name := { Space := "", Local := "xmlns" }, Value := n }]
    (tokens.append [.StartElement b [], r], none)

/-- Go `tokenData.endBody`. -/
def endBody (g : Globals) (tokens : tokenData) (m : String) : tokenData :=
  let b : Name := { Space := "", Local := g.soapPrefix ++ ":Body" }
  let r : Name := { Space := "", Local := m }
  tokens.append [.EndElement r, .EndElement b]

/-! ## `process.MarshalXML` -/

/-- Modelled from the spec: the declaration of `xsdImport` is not among the
sources; the one field `MarshalXML` reads is kept. -/
structure xsdImport where
  Namespace : String
deriving DecidableEq, Repr

/-- Modelled from the spec: the declaration of `xsdSchema` is not among the
sources; the one field `MarshalXML` reads is kept. -/
structure xsdSchema where
  Imports : List xsdImport
deriving DecidableEq, Repr

/-- Modelled from the spec: the declaration of `wsdlTypes` (a schema type
section) is not among the sources; the one field `MarshalXML` reads is kept. -/
structure wsdlTypes where
  XsdSchema : List xsdSchema
deriving DecidableEq, Repr

/-- Modelled from the spec: the declaration of `wsdlDefinitions` (the
definitions model) is not among the sources; the two fields `MarshalXML` reads
are kept. -/
structure wsdlDefinitions where
  TargetNamespace : String
  Types : List wsdlTypes
deriving DecidableEq, Repr

/-- Modelled from the spec: the declaration of `Client` is not among the
sources; the fields `MarshalXML` reads are kept.  `Definitions` is `none` for
the nil pointer; `HeaderParams` is an optional dynamic value, `GoValue.Nil`
when absent. -/
structure Client where
  Definitions : Option wsdlDefinitions
  HeaderName : String
  HeaderParams : GoValue

/-- Modelled from the spec: the declaration of `Request` is not among the
sources; the fields `MarshalXML` reads are kept.  `Params` is a dynamic
value. -/
structure Request where
  Method : String
  Params : GoValue

/-- Modelled from the spec: the declaration of `process` is not among the
sources; the fields `MarshalXML` reads are kept. -/
structure process where
  Client : Client
  Request : Request

/-- The external `*xml.Encoder` as `MarshalXML` uses it: the error, `none` for
`nil`, of `EncodeToken` on a token given the tokens it was handed before, and
the error of `Flush`. -/
structure Encoder where
  EncodeToken : List Token → Token → Option String
  Flush : List Token → Option String

/-- How a call of `MarshalXML` ends. -/
inductive Returned where
  | nil
  | error (msg : String)
  | panic
deriving DecidableEq, Repr

/-- What a call of `MarshalXML` does: the tokens handed to `e.EncodeToken`, in
call order, and how the call ends. -/
structure Outcome where
  written : List Token
  ret : Returned
deriving DecidableEq, Repr

/-- The namespace `MarshalXML` computes from a present definitions model
(the statements from `namespace := ""` up to `tokens.startEnvelope()`). -/
def resolveNamespace (d : wsdlDefinitions) : String :=
  match d.Types with
  | types0 :: _ =>
    match types0.XsdSchema with
    | schema :: _ =>
      if d.TargetNamespace = "" then
        match schema.Imports with
        | imp :: _ => imp.Namespace
        | [] => d.TargetNamespace
      else d.TargetNamespace
    | [] => d.TargetNamespace
  | [] => ""

/-- The loop `for _, t := range tokens.data` of `MarshalXML` followed by
`e.Flush()`; `written` are the tokens handed over so far. -/
def writeTokens (e : Encoder) (written : List Token) : List Token → Outcome
  | [] =>
    match e.Flush written with
    | some err => { written := written, ret := .error err }
    | none => { written := written, ret := .nil }
  | t :: rest =>
    match e.EncodeToken written t with
    | some err => { written := written ++ [t], ret := .error err }
    | none => writeTokens e (written ++ [t]) rest

/-- The token accumulator `MarshalXML` builds before it writes anything (the
statements from `tokens.startEnvelope()` to `tokens.endEnvelope()`): `none`
for a panic, otherwise the accumulator and the error of `startBody`. -/
def assemble (g : Globals) (c : process) (namespace_ : String) :
    Option (tokenData × Option String) :=
  let tokens : tokenData := { data := [] }
  let tokens := startEnvelope g tokens
  let afterHeader : Option tokenData :=
    if !isNil c.Client.HeaderParams then
      let tokens := startHeader g tokens c.Client.HeaderName namespace_
      match recursiveEncode tokens c.Client.HeaderParams with
      | some tokens => some (endHeader g tokens c.Client.HeaderName)
      | none => none
    else some tokens
  match afterHeader with
  | none => none
  | some tokens =>
    match startBody g tokens c.Request.Method namespace_ with
    | (tokens, some err) => some (tokens, some err)
    | (tokens, none) =>
      match recursiveEncode tokens c.Request.Params with
      | none => none
      | some tokens =>
        let tokens := endBody g tokens c.Request.Method
        let tokens := endEnvelope g tokens
        some (tokens, none)

/-- Go `process.MarshalXML`. -/
def MarshalXML (g : Globals) (c : process) (e : Encoder) : Outcome :=
  match c.Client.Definitions with
  | none => { written := [], ret := .error "definitions is nil" }
  | some d =>
    match assemble g c (resolveNamespace d) with
    | none => { written := [], ret := .panic }
    | some (_, some err) => { written := [], ret := .error err }
    | some (tokens, none) => writeTokens e [] tokens.data

/-! ## Notions the properties are stated with -/

/-- The tokens `recursiveEncode` appends for `hm`, `none` when it panics. -/
def encode (hm : GoValue) : Option (List Token) :=
  (recursiveEncode { data := [] } hm).map (fun tokens => tokens.data)

/-- A stack-based tag matcher: an open tag is pushed, a close tag must carry
the name on top of the stack and pops it, text is skipped.  The result is the
stack left at the end, `none` when a close tag does not match. -/
def matchTags : List Name → List Token → Option (List Name)
  | stack, [] => some stack
  | stack, .StartElement name _ :: rest => matchTags (name :: stack) rest
  | [], .EndElement _ :: _ => none
  | top :: stack, .EndElement name :: rest =>
    if top = name then matchTags stack rest else none
  | stack, .CharData _ :: rest => matchTags stack rest

/-- A token sequence is well-formed when the tag matcher, started on the empty
stack, ends on the empty stack. -/
def WellFormed (ts : List Token) : Prop :=
  matchTags [] ts = some []

/-- A balanced run: from any stack the tag matcher gets back to that stack. -/
def Balanced (ts : List Token) : Prop :=
  ∀ stack, matchTags stack ts = some stack

/-- `Open(name)` without attributes. -/
def openTag (name : String) : Token :=
  .StartElement { Space := "", Local := name } []

/-- `Open(name, [xmlns=ns])`. -/
def openTagNs (name ns : String) : Token :=
  .StartElement { Space := "", Local := name }
    [{ Name := { Space := "", Local := "xmlns" }, Value := ns }]

/-- `Close(name)`. -/
def closeTag (name : String) : Token :=
  .EndElement { Space := "", Local := name }

/-- The attributes `startEnvelope` puts on the envelope tag. -/
def envelopeAttrs (g : Globals) : List Attr :=
  match startEnvelope g { data := [] } with
  | { data := [.StartElement _ attr] } => attr
  | _ => []

/-- `Open(prefix:Envelope, attrs)`. -/
def openEnvelope (g : Globals) : Token :=
  .StartElement { Space := "", Local := g.soapPrefix ++ ":Envelope" } (envelopeAttrs g)

/-- The tokens of the header step of `MarshalXML` around the tokens `run` of
the header params: what `startHeader` appends, `run`, what `endHeader`
appends. -/
def headerSection (g : Globals) (m n : String) (run : List Token) : List Token :=
  (startHeader g { data := [] } m n).data ++ run ++ (endHeader g { data := [] } m).data

/-- The tokens of the body steps of `MarshalXML` around the tokens `run` of
the body params. -/
def bodySection (g : Globals) (m n : String) (run : List Token) : List Token :=
  [openTag (g.soapPrefix ++ ":Body"), openTagNs m n] ++ run ++
    [closeTag m, closeTag (g.soapPrefix ++ ":Body")]

/-- An encoder that accepts every token and flushes without error. -/
def acceptAll : Encoder :=
  { EncodeToken := fun _ _ => none, Flush := fun _ => none }

/-! ## Concrete requests and encoders -/

/-- A definitions model with target namespace `tns` and one type section. -/
def definitionsWith (tns : String) : wsdlDefinitions :=
  { TargetNamespace := tns, Types := [{ XsdSchema := [] }] }

/-- Scenario B: no header params, body params `{"x": "y"}`, method `DoWork`,
namespace `urn:test`. -/
def scenarioB : process :=
  { Client := { Definitions := some (definitionsWith "urn:test"), HeaderName := "",
                HeaderParams := .Nil },
    Request := { Method := "DoWork", Params := .Map [(.Str "x", .String true "y")] } }

/-- Scenario C: header name `Auth`, namespace `urn:h`, header params
`{"token": "abc"}`; body as in scenario B. -/
def scenarioC : process :=
  { Client := { Definitions := some (definitionsWith "urn:h"), HeaderName := "Auth",
                HeaderParams := .Map [(.Str "token", .String true "abc")] },
    Request := { Method := "DoWork", Params := .Map [(.Str "x", .String true "y")] } }

/-- A request without a definitions model. -/
def noDefinitions : process :=
  { Client := { Definitions := none, HeaderName := "Auth",
                HeaderParams := .Map [(.Str "token", .String true "abc")] },
    Request := { Method := "DoWork", Params := .Map [(.Str "x", .String true "y")] } }

/-- Scenario C with an empty method. -/
def emptyMethod : process :=
  { Client := { Definitions := some (definitionsWith "urn:h"), HeaderName := "Auth",
                HeaderParams := .Map [(.Str "token", .String true "abc")] },
    Request := { Method := "", Params := .Map [(.Str "x", .String true "y")] } }

/-- Scenario B with the body params `{"": "y"}`: a map entry with the empty
key. -/
def emptyKeyBody : process :=
  { Client := { Definitions := some (definitionsWith "urn:test"), HeaderName := "",
                HeaderParams := .Nil },
    Request := { Method := "DoWork", Params := .Map [(.Str "", .String true "y")] } }

/-- An encoder with the one check of `xml.Encoder` that matters here: a start
tag with an empty local name is refused. -/
def namedTagsOnly : Encoder :=
  { EncodeToken := fun _ t =>
      match t with
      | .StartElement name _ =>
        if name.Local = "" then some "xml: start tag with no name" else none
      | _ => none,
    Flush := fun _ => none }

/-- The local name of a tag token; text has none. -/
def tokenName : Token → Option String
  | .StartElement name _ => some name.Local
  | .EndElement name => some name.Local
  | .CharData _ => none

/-- A Header token: an open or close tag named `prefix:Header`. -/
def IsHeaderToken (g : Globals) (t : Token) : Prop :=
  tokenName t = some (g.soapPrefix ++ ":Header")

instance (g : Globals) (t : Token) : Decidable (IsHeaderToken g t) := by
  unfold IsHeaderToken
  infer_instance

/-! ## Reading decimal text back -/

/-- The value of a decimal digit. -/
def digitValue (c : Char) : Option Nat :=
  if 48 ≤ c.toNat ∧ c.toNat ≤ 57 then some (c.toNat - 48) else none

/-- Reads decimal digits, most significant first, onto `acc`. -/
def parseDigits : Nat → List Char → Option Nat
  | acc, [] => some acc
  | acc, c :: cs =>
    match digitValue c with
    | some d => parseDigits (10 * acc + d) cs
    | none => none

/-- Reads a decimal natural number: one or more digits. -/
def parseUint (s : String) : Option Nat :=
  if s.data = [] then none else parseDigits 0 s.data

/-- Reads a decimal integer: an optional `-` sign, then one or more digits. -/
def parseInt (s : String) : Option Int :=
  match s.data with
  | [] => none
  | c :: cs =>
    if c = '-' then
      if cs = [] then none else (parseDigits 0 cs).map (fun (n : Nat) => -Int.ofNat n)
    else (parseDigits 0 (c :: cs)).map (fun (n : Nat) => Int.ofNat n)

/-- Canonical decimal digits: at least one character, digits only, and no
leading zero except in `0` itself. -/
def CanonicalDigits (cs : List Char) : Prop :=
  cs ≠ [] ∧ (∀ c ∈ cs, digitValue c ≠ none) ∧ (cs.head? = some '0' → cs = ['0'])

/-! ## Scalars -/

/-- The 32-bit float nearest to 3.14, Go `float32(3.14)`:
`13170115 * 2 ^ (-22)`. -/
def float32_3_14 : GoFloat := .Finite false 13170115 (-22)

/-- The 64-bit float nearest to 2.718, Go `2.718`:
`6120391893596504 * 2 ^ (-51)`. -/
def float64_2_718 : GoFloat := .Finite false 6120391893596504 (-51)

/-- The scalar kinds: string, signed and unsigned integer, float, boolean. -/
def isScalar : GoValue → Bool
  | .String _ _ => true
  | .Int _ _ => true
  | .Uint _ _ => true
  | .Float32 _ => true
  | .Float64 _ => true
  | .Bool _ => true
  | _ => false

/-- Brings a positive `mant * 2 ^ exp` to the form the 32-bit format stores:
`2 ^ 23 ≤ mant < 2 ^ 24`, or `exp = -149` for a denormal. -/
def normalize32 (mant : Nat) (exp : Int) : Nat × Int :=
  let bits := bitLen mant mant
  if 24 < bits then
    let s := bits - 24
    (mant / 2 ^ s, exp + (s : Int))
  else
    let s := min (24 - bits) (exp + 149).toNat
    (mant * 2 ^ s, exp - (s : Int))

/-- The decimal `d * 10 ^ k` with `d ≥ 1` closest to the 32-bit float
`m * 2 ^ e` (of two equally close ones the even `d`) among those that round
back to it as a 32-bit float, when there is one with that `k`.  The float and
the two midpoints to its 32-bit neighbours are taken in units of `2 ^ (e - 2)`;
a midpoint itself rounds back exactly when `m` is even. -/
def shortestAt32 (m : Nat) (e k : Int) : Option Nat :=
  let nx := 4 * m
  let nhi := 4 * m + 2
  let nlo := if m = 2 ^ 23 ∧ -149 < e then 4 * m - 1 else 4 * m - 2
  let a := 2 ^ (e - 2).toNat * 10 ^ (-k).toNat
  let b := 10 ^ k.toNat * 2 ^ (2 - e).toNat
  let dmin := max 1 (if m % 2 = 0 then ceilDiv (nlo * a) b else nlo * a / b + 1)
  let dmax := if m % 2 = 0 then nhi * a / b else ceilDiv (nhi * a) b - 1
  let q := (2 * nx * a + b) / (2 * b)
  let near := if (2 * nx * a + b) % (2 * b) = 0 ∧ q % 2 = 1 then q - 1 else q
  if dmin ≤ dmax then some (max dmin (min dmax near)) else none

/-- Searches the decimal exponents `k, k - 1, ...` for the first one at which
`shortestAt32` finds digits: the fewest digits that identify the 32-bit float. -/
def shortestFrom32 (m : Nat) (e : Int) : Nat → Int → Option (Nat × Int)
  | 0, _ => none
  | fuel + 1, k =>
    match shortestAt32 m e k with
    | some d => some (d, k)
    | none => shortestFrom32 m e fuel (k - 1)

/-- The shortest decimal `(d, k)`, read `d * 10 ^ k`, that identifies the
positive 32-bit float `mant * 2 ^ exp` among the 32-bit floats. -/
def shortest32 (mant : Nat) (exp : Int) : Option (Nat × Int) :=
  let (m, e) := normalize32 mant exp
  let top := max 0 ((bitLen (4 * m + 2) (4 * m + 2) : Int) + (e - 2))
  let bot := min 0 e
  shortestFrom32 m e ((top - bot).toNat + 1) top

/-- The canonical text of a 32-bit float: the shortest decimal that round-trips
to that 32-bit float, in fixed notation (Go `strconv.FormatFloat(f, 'f', -1, 32)`),
as in the test row `float32(3.14)` gives `3.14`. -/
def canonicalFloat32 (f : GoFloat) : String :=
  match f with
  | .NaN => "NaN"
  | .Inf neg => if neg then "-Inf" else "+Inf"
  | .Finite neg mant exp =>
    (if neg then "-" else "") ++
      (if mant = 0 then "0"
       else match shortest32 mant exp with
         | some (d, k) => fixedNotation d k
         | none => "")

/-- The canonical text of a scalar: the string itself; the base-10 decimal of
an integer, with a `-` sign only for a negative one; for a float the shortest
decimal that round-trips to the float at its own width, 32 or 64 bits, in fixed
notation; `true` or `false`. -/
def canonicalText : GoValue → String
  | .String _ s => s
  | .Int _ i => FormatInt i
  | .Uint _ u => FormatUint u
  | .Float32 f => canonicalFloat32 f
  | .Float64 f => FormatFloat f
  | .Bool b => FormatBool b
  | _ => ""

/-- Whether the value is a 32-bit float. -/
def isFloat32 : GoValue → Bool
  | .Float32 _ => true
  | _ => false

/-- The contents of the text tokens of a sequence, in order. -/
def textContents : List Token → List String
  | [] => []
  | .CharData content :: rest => content :: textContents rest
  | _ :: rest => textContents rest

/-- The triple `Open(key), Text(canonical text of the value), Close(key)` of a
map entry that holds a scalar. -/
def entryTriple (entry : MapKey × GoValue) : List Token :=
  [openTag (keyString entry.1), .CharData (canonicalText entry.2),
    closeTag (keyString entry.1)]

/-! ## Concrete definitions models and configurations -/

/-- A definitions model with the target namespace `urn:t` and no type section
at all. -/
def noTypeSections : wsdlDefinitions :=
  { TargetNamespace := "urn:t", Types := [] }

/-- A definitions model without a target namespace whose first schema imports
`urn:imp` first. -/
def importedNamespace : wsdlDefinitions :=
  { TargetNamespace := "",
    Types := [{ XsdSchema := [{ Imports := [{ Namespace := "urn:imp" },
                                            { Namespace := "urn:other" }] }] }] }

/-- A definitions model without a target namespace whose first schema imports
nothing. -/
def noNamespaceAnywhere : wsdlDefinitions :=
  { TargetNamespace := "", Types := [{ XsdSchema := [{ Imports := [] }] }] }

/-- A configuration with the prefix `s` and one custom attribute. -/
def customGlobals : Globals :=
  { soapPrefix := "s", customEnvelopeAttrs := some [("xmlns:s", "urn:env")] }

/-! ## Concrete values -/

/-- Go `struct{ Émission string }{"x"}`: one exported field whose name starts
with the two bytes `0xC3 0x89` of `É`. -/
def accentedField : GoValue :=
  .Struct [({ Name := "\xC3\x89mission", TagXml := "", Exported := true },
            .String true "x")]

/-- Go `struct{ secret int }{1}`: one field that is not exported. -/
def hiddenField : GoValue :=
  .Struct [({ Name := "secret", TagXml := "", Exported := false }, .Int .Int 1)]

/-- A Go struct value with a tagged field and an untagged one:
the field `Name string` with the tag `xml:"n"` holding `"a"`, and the field
`Age int` holding `3`. -/
def taggedRecord : GoValue :=
  .Struct [({ Name := "Name", TagXml := "n", Exported := true }, .String true "a"),
           ({ Name := "Age", TagXml := "", Exported := true }, .Int .Int 3)]

/-- Go `[3]int{1, 2, 3}`. -/
def threeInts : GoValue :=
  .Array [.Int .Int 1, .Int .Int 2, .Int .Int 3]

/-- Go `[2]interface{}{"id", 7}`: a named pair. -/
def idPair : GoValue :=
  .Array [.String true "id", .Int .Int 7]

/-- The attribute `startEnvelope` makes of a configured entry `(name, value)`. -/
def customAttr (kv : String × String) : Attr :=
  { Name := { Space := "", Local := kv.1 }, Value := kv.2 }

/-- A request whose definitions resolve to the empty namespace, with the header
name `Auth` and the header params `{"token": "abc"}`. -/
def emptyNamespaceHeader : process :=
  { Client := { Definitions := some noTypeSections, HeaderName := "Auth",
                HeaderParams := .Map [(.Str "token", .String true "abc")] },
    Request := { Method := "DoWork", Params := .Map [(.Str "x", .String true "y")] } }

/-- The number of open tags of a sequence. -/
def countOpen : List Token → Nat
  | [] => 0
  | .StartElement _ _ :: rest => countOpen rest + 1
  | _ :: rest => countOpen rest

/-- The number of close tags of a sequence. -/
def countClose : List Token → Nat
  | [] => 0
  | .EndElement _ :: rest => countClose rest + 1
  | _ :: rest => countClose rest

/-- A nested value: a map holding a slice of a named pair and a struct. -/
def nestedValue : GoValue :=
  .Map [(.Str "items", .Slice [idPair, taggedRecord]), (.Str "ok", .Bool true)]

/-! ## Lemmas on the accumulator -/

theorem append_empty (ts : List Token) :
    tokenData.append { data := [] } ts = { data := ts } := by
  simp [tokenData.append]

mutual

/-- The encoder only appends: its result on any accumulator is its result on
the empty one, appended. -/
theorem recursiveEncode_acc (tokens : tokenData) : ∀ hm : GoValue,
    recursiveEncode tokens hm =
      (recursiveEncode { data := [] } hm).map (fun r => tokens.append r.data)
  | .Map entries => by
    simp only [recursiveEncode]
    exact encodeMapKeys_acc tokens entries
  | .Slice elems => by
    simp only [recursiveEncode]
    exact encodeSlice_acc tokens elems
  | .Array [] => by simp [recursiveEncode, tokenData.append]
  | .Array [_] => by simp [recursiveEncode, tokenData.append]
  | .Array (_ :: _ :: _ :: _) => by simp [recursiveEncode, tokenData.append]
  | .Array [label, value] => by
    cases label with
    | String exact s =>
      cases exact with
      | false => simp [recursiveEncode]
      | true =>
        simp only [recursiveEncode]
        rw [recursiveEncode_acc (tokens.append _) value,
          recursiveEncode_acc (tokenData.append { data := [] } _) value]
        cases recursiveEncode { data := [] } value with
        | none => simp
        | some r => simp [tokenData.append]
    | _ => simp [recursiveEncode]
  | .String _ s => by simp [recursiveEncode, tokenData.append]
  | .Int _ i => by simp [recursiveEncode, tokenData.append]
  | .Uint _ u => by simp [recursiveEncode, tokenData.append]
  | .Float32 f => by simp [recursiveEncode, tokenData.append]
  | .Float64 f => by simp [recursiveEncode, tokenData.append]
  | .Bool b => by simp [recursiveEncode, tokenData.append]
  | .Struct fields => by
    simp only [recursiveEncode]
    exact encodeFields_acc tokens fields
  | .Nil => by simp [recursiveEncode]
  | .Other repr => by simp [recursiveEncode, tokenData.append]

/-- The map loop only appends. -/
theorem encodeMapKeys_acc (tokens : tokenData) : ∀ entries : List (MapKey × GoValue),
    encodeMapKeys tokens entries =
      (encodeMapKeys { data := [] } entries).map (fun r => tokens.append r.data)
  | [] => by simp [encodeMapKeys, tokenData.append]
  | (key, value) :: rest => by
    simp only [encodeMapKeys]
    rw [recursiveEncode_acc (tokens.append _) value,
      recursiveEncode_acc (tokenData.append { data := [] } _) value]
    cases recursiveEncode { data := [] } value with
    | none => simp
    | some r =>
      simp only [Option.map_some']
      rw [encodeMapKeys_acc (tokenData.append _ _) rest,
        encodeMapKeys_acc (tokenData.append (tokenData.append
          (tokenData.append { data := [] } _) _) _) rest]
      cases encodeMapKeys { data := [] } rest with
      | none => simp
      | some r2 => simp [tokenData.append]

/-- The slice loop only appends. -/
theorem encodeSlice_acc (tokens : tokenData) : ∀ elems : List GoValue,
    encodeSlice tokens elems =
      (encodeSlice { data := [] } elems).map (fun r => tokens.append r.data)
  | [] => by simp [encodeSlice, tokenData.append]
  | x :: rest => by
    simp only [encodeSlice]
    rw [recursiveEncode_acc tokens x]
    cases recursiveEncode { data := [] } x with
    | none => simp
    | some r =>
      simp only [Option.map_some']
      rw [encodeSlice_acc (tokenData.append _ _) rest, encodeSlice_acc r rest]
      cases encodeSlice { data := [] } rest with
      | none => simp
      | some r2 => simp [tokenData.append]

/-- The struct loop only appends. -/
theorem encodeFields_acc (tokens : tokenData) : ∀ fields : List (StructField × GoValue),
    encodeFields tokens fields =
      (encodeFields { data := [] } fields).map (fun r => tokens.append r.data)
  | [] => by simp [encodeFields, tokenData.append]
  | (field, value) :: rest => by
    simp only [encodeFields]
    cases fieldElementName field with
    | none => simp
    | some name =>
      cases field.Exported with
      | false => simp
      | true =>
        simp only [if_true]
        rw [recursiveEncode_acc (tokens.append _) value,
          recursiveEncode_acc (tokenData.append { data := [] } _) value]
        cases recursiveEncode { data := [] } value with
        | none => simp
        | some r =>
          simp only [Option.map_some']
          rw [encodeFields_acc (tokenData.append _ _) rest,
            encodeFields_acc (tokenData.append (tokenData.append
              (tokenData.append { data := [] } _) _) _) rest]
          cases encodeFields { data := [] } rest with
          | none => simp
          | some r2 => simp [tokenData.append]

end

/-- On any accumulator the encoder appends the tokens of `encode`. -/
theorem recursiveEncode_eq (tokens : tokenData) (hm : GoValue) :
    recursiveEncode tokens hm = (encode hm).map (fun run => tokens.append run) := by
  rw [recursiveEncode_acc, encode, Option.map_map]
  rfl

/-! ## The tokens of each kind of value -/

theorem encode_map_nil : encode (.Map []) = some [] := by
  simp [encode, recursiveEncode, encodeMapKeys]

theorem encode_map_cons (key : MapKey) (value : GoValue) (rest : List (MapKey × GoValue)) :
    encode (.Map ((key, value) :: rest)) =
      (encode value).bind (fun rv => (encode (.Map rest)).map (fun rr =>
        openTag (keyString key) :: (rv ++ closeTag (keyString key) :: rr))) := by
  simp only [encode, recursiveEncode, encodeMapKeys]
  rw [recursiveEncode_acc]
  cases recursiveEncode { data := [] } value with
  | none => simp
  | some r =>
    simp only [Option.map_some', Option.some_bind]
    rw [encodeMapKeys_acc]
    cases encodeMapKeys { data := [] } rest with
    | none => simp
    | some r2 => simp [tokenData.append, openTag, closeTag]

theorem encode_slice_nil : encode (.Slice []) = some [] := by
  simp [encode, recursiveEncode, encodeSlice]

theorem encode_slice_cons (x : GoValue) (rest : List GoValue) :
    encode (.Slice (x :: rest)) =
      (encode x).bind (fun r => (encode (.Slice rest)).map (fun rr => r ++ rr)) := by
  simp only [encode, recursiveEncode, encodeSlice]
  cases recursiveEncode { data := [] } x with
  | none => simp
  | some r =>
    simp only [Option.map_some', Option.some_bind]
    rw [encodeSlice_acc]
    cases encodeSlice { data := [] } rest with
    | none => simp
    | some r2 => simp [tokenData.append]

theorem encode_struct_nil : encode (.Struct []) = some [] := by
  simp [encode, recursiveEncode, encodeFields]

theorem encode_struct_cons (field : StructField) (value : GoValue)
    (rest : List (StructField × GoValue)) :
    encode (.Struct ((field, value) :: rest)) =
      (fieldElementName field).bind (fun name =>
        if field.Exported then
          (encode value).bind (fun rv => (encode (.Struct rest)).map (fun rr =>
            openTag name :: (rv ++ closeTag name :: rr)))
        else none) := by
  simp only [encode, recursiveEncode, encodeFields]
  cases fieldElementName field with
  | none => simp
  | some name =>
    cases field.Exported with
    | false => simp
    | true =>
      simp only [if_true, Option.some_bind]
      rw [recursiveEncode_acc]
      cases recursiveEncode { data := [] } value with
      | none => simp
      | some r =>
        simp only [Option.map_some', Option.some_bind]
        rw [encodeFields_acc]
        cases encodeFields { data := [] } rest with
        | none => simp
        | some r2 => simp [tokenData.append, openTag, closeTag]

theorem encode_pair (s : String) (value : GoValue) :
    encode (.Array [.String true s, value]) =
      (encode value).map (fun rv => openTag s :: (rv ++ [closeTag s])) := by
  simp only [encode, recursiveEncode]
  rw [recursiveEncode_acc]
  cases recursiveEncode { data := [] } value with
  | none => simp
  | some r => simp [tokenData.append, openTag, closeTag]

/-! ## The tag matcher -/

theorem matchTags_append (ts us : List Token) : ∀ stack : List Name,
    matchTags stack (ts ++ us) = (matchTags stack ts).bind (fun st => matchTags st us) := by
  induction ts with
  | nil => intro stack; simp [matchTags]
  | cons t ts ih =>
    intro stack
    cases t with
    | StartElement name attr => simp [matchTags, ih]
    | CharData content => simp [matchTags, ih]
    | EndElement name =>
      cases stack with
      | nil => simp [matchTags]
      | cons top stack =>
        by_cases h : top = name
        · simp [matchTags, h, ih]
        · simp [matchTags, h]

theorem balanced_nil : Balanced [] := by
  intro stack; simp [matchTags]

theorem balanced_append {ts us : List Token} (h1 : Balanced ts) (h2 : Balanced us) :
    Balanced (ts ++ us) := by
  intro stack
  rw [matchTags_append, h1 stack]
  exact h2 stack

theorem balanced_text (content : String) : Balanced [.CharData content] := by
  intro stack; simp [matchTags]

/-- A balanced run between `Open(name)` and `Close(name)` is balanced. -/
theorem balanced_wrap (name : Name) (attr : List Attr) {ts : List Token} (h : Balanced ts) :
    Balanced (.StartElement name attr :: (ts ++ [.EndElement name])) := by
  intro stack
  simp only [matchTags]
  rw [matchTags_append, h (name :: stack)]
  simp [matchTags]

theorem balanced_wrap_cons (name : Name) (attr : List Attr) {ts us : List Token}
    (h1 : Balanced ts) (h2 : Balanced us) :
    Balanced (.StartElement name attr :: (ts ++ .EndElement name :: us)) := by
  have h := balanced_append (balanced_wrap name attr h1) h2
  simpa using h

mutual

/-- The tokens of a value form a balanced run. -/
theorem encode_balanced : ∀ (hm : GoValue) (run : List Token),
    encode hm = some run → Balanced run
  | .Map entries, run, h => encode_map_balanced entries run h
  | .Slice elems, run, h => encode_slice_balanced elems run h
  | .Array [], run, h => by
    simp [encode, recursiveEncode] at h; subst h; exact balanced_nil
  | .Array [_], run, h => by
    simp [encode, recursiveEncode] at h; subst h; exact balanced_nil
  | .Array (_ :: _ :: _ :: _), run, h => by
    simp [encode, recursiveEncode] at h; subst h; exact balanced_nil
  | .Array [label, value], run, h => by
    cases label with
    | String exact s =>
      cases exact with
      | false => simp [encode, recursiveEncode] at h
      | true =>
        rw [encode_pair] at h
        cases hv : encode value with
        | none => simp [hv] at h
        | some rv =>
          simp [hv] at h
          subst h
          exact balanced_wrap _ _ (encode_balanced value rv hv)
    | _ => simp [encode, recursiveEncode] at h
  | .String _ s, run, h => by
    simp [encode, recursiveEncode, tokenData.append] at h; subst h; exact balanced_text _
  | .Int _ i, run, h => by
    simp [encode, recursiveEncode, tokenData.append] at h; subst h; exact balanced_text _
  | .Uint _ u, run, h => by
    simp [encode, recursiveEncode, tokenData.append] at h; subst h; exact balanced_text _
  | .Float32 f, run, h => by
    simp [encode, recursiveEncode, tokenData.append] at h; subst h; exact balanced_text _
  | .Float64 f, run, h => by
    simp [encode, recursiveEncode, tokenData.append] at h; subst h; exact balanced_text _
  | .Bool b, run, h => by
    simp [encode, recursiveEncode, tokenData.append] at h; subst h; exact balanced_text _
  | .Struct fields, run, h => encode_struct_balanced fields run h
  | .Nil, run, h => by simp [encode, recursiveEncode] at h
  | .Other repr, run, h => by
    simp [encode, recursiveEncode, tokenData.append] at h; subst h; exact balanced_text _

/-- The tokens of a map form a balanced run. -/
theorem encode_map_balanced : ∀ (entries : List (MapKey × GoValue)) (run : List Token),
    encode (.Map entries) = some run → Balanced run
  | [], run, h => by
    rw [encode_map_nil] at h; cases h; exact balanced_nil
  | (key, value) :: rest, run, h => by
    rw [encode_map_cons] at h
    cases hv : encode value with
    | none => simp [hv] at h
    | some rv =>
      cases hr : encode (.Map rest) with
      | none => simp [hv, hr] at h
      | some rr =>
        simp [hv, hr] at h
        subst h
        exact balanced_wrap_cons _ _ (encode_balanced value rv hv)
          (encode_map_balanced rest rr hr)

/-- The tokens of a slice form a balanced run. -/
theorem encode_slice_balanced : ∀ (elems : List GoValue) (run : List Token),
    encode (.Slice elems) = some run → Balanced run
  | [], run, h => by
    rw [encode_slice_nil] at h; cases h; exact balanced_nil
  | x :: rest, run, h => by
    rw [encode_slice_cons] at h
    cases hv : encode x with
    | none => simp [hv] at h
    | some rv =>
      cases hr : encode (.Slice rest) with
      | none => simp [hv, hr] at h
      | some rr =>
        simp [hv, hr] at h
        subst h
        exact balanced_append (encode_balanced x rv hv) (encode_slice_balanced rest rr hr)

/-- The tokens of a struct form a balanced run. -/
theorem encode_struct_balanced : ∀ (fields : List (StructField × GoValue)) (run : List Token),
    encode (.Struct fields) = some run → Balanced run
  | [], run, h => by
    rw [encode_struct_nil] at h; cases h; exact balanced_nil
  | (field, value) :: rest, run, h => by
    rw [encode_struct_cons] at h
    cases hn : fieldElementName field with
    | none => simp [hn] at h
    | some name =>
      cases he : field.Exported with
      | false => simp [hn, he] at h
      | true =>
        cases hv : encode value with
        | none => simp [hn, he, hv] at h
        | some rv =>
          cases hr : encode (.Struct rest) with
          | none => simp [hn, he, hv, hr] at h
          | some rr =>
            simp [hn, he, hv, hr] at h
            subst h
            exact balanced_wrap_cons _ _ (encode_balanced value rv hv)
              (encode_struct_balanced rest rr hr)

end

/-! ## The envelope steps -/

theorem startEnvelope_eq (g : Globals) (tokens : tokenData) :
    startEnvelope g tokens = tokens.append [openEnvelope g] := by
  simp [startEnvelope, openEnvelope, envelopeAttrs, tokenData.append]

theorem endEnvelope_eq (g : Globals) (tokens : tokenData) :
    endEnvelope g tokens = tokens.append [closeTag (g.soapPrefix ++ ":Envelope")] := rfl

theorem startHeader_eq (g : Globals) (tokens : tokenData) (m n : String) :
    startHeader g tokens m n = tokens.append
      (if m = "" ∨ n = "" then [openTag (g.soapPrefix ++ ":Header")]
       else [openTag (g.soapPrefix ++ ":Header"), openTagNs m n]) := by
  unfold startHeader
  split <;> rfl

theorem endHeader_eq (g : Globals) (tokens : tokenData) (m : String) :
    endHeader g tokens m = tokens.append
      (if m = "" then [closeTag (g.soapPrefix ++ ":Header")]
       else [closeTag m, closeTag (g.soapPrefix ++ ":Header")]) := by
  unfold endHeader
  split <;> rfl

theorem startBody_eq (g : Globals) (tokens : tokenData) (m n : String) :
    startBody g tokens m n =
      if m = "" ∨ n = "" then (tokens, some "method or namespace is empty")
      else (tokens.append [openTag (g.soapPrefix ++ ":Body"), openTagNs m n], none) := by
  unfold startBody
  split <;> rfl

theorem endBody_eq (g : Globals) (tokens : tokenData) (m : String) :
    endBody g tokens m = tokens.append [closeTag m, closeTag (g.soapPrefix ++ ":Body")] := rfl

theorem headerSection_eq (g : Globals) (m n : String) (run : List Token) :
    headerSection g m n run =
      (if m = "" ∨ n = "" then [openTag (g.soapPrefix ++ ":Header")]
        else [openTag (g.soapPrefix ++ ":Header"), openTagNs m n]) ++ run ++
      (if m = "" then [closeTag (g.soapPrefix ++ ":Header")]
        else [closeTag m, closeTag (g.soapPrefix ++ ":Header")]) := by
  simp [headerSection, startHeader_eq, endHeader_eq, append_empty]

/-- The accumulator `MarshalXML` builds, in closed form. -/
theorem assemble_eq (g : Globals) (c : process) (ns : String) :
    assemble g c ns =
      ((if isNil c.Client.HeaderParams then some []
        else (encode c.Client.HeaderParams).map (headerSection g c.Client.HeaderName ns)).bind
        (fun hdr =>
          if c.Request.Method = "" ∨ ns = "" then
            some ({ data := openEnvelope g :: hdr }, some "method or namespace is empty")
          else
            (encode c.Request.Params).map (fun run =>
              ({ data := openEnvelope g :: (hdr ++ bodySection g c.Request.Method ns run ++
                  [closeTag (g.soapPrefix ++ ":Envelope")]) }, none)))) := by
  unfold assemble
  simp only [headerSection_eq, startEnvelope_eq, startHeader_eq, endHeader_eq, startBody_eq,
    endBody_eq, endEnvelope_eq, recursiveEncode_eq, append_empty]
  cases hnil : isNil c.Client.HeaderParams with
  | true =>
    simp only [Bool.not_true, Option.some_bind]
    by_cases hm : c.Request.Method = "" ∨ ns = ""
    · simp [hm]
    · simp only [hm, if_false]
      cases encode c.Request.Params with
      | none => simp
      | some run => simp [tokenData.append, bodySection]
  | false =>
    simp only [Bool.not_false, if_true]
    cases encode c.Client.HeaderParams with
    | none => simp
    | some hrun =>
      simp only [Option.map_some', Option.some_bind]
      by_cases hm : c.Request.Method = "" ∨ ns = ""
      · simp [hm, tokenData.append, headerSection_eq]
      · simp only [hm, if_false]
        cases encode c.Request.Params with
        | none => simp
        | some run => simp [tokenData.append, bodySection, headerSection_eq]

/-- The header step is balanced once the namespace is not empty. -/
theorem headerSection_balanced (g : Globals) (m n : String) (hn : n ≠ "")
    {run : List Token} (h : Balanced run) : Balanced (headerSection g m n run) := by
  rw [headerSection_eq]
  by_cases hm : m = ""
  · simp only [hm, true_or, if_true]
    have := balanced_wrap { Space := "", Local := g.soapPrefix ++ ":Header" } [] h
    simpa [openTag, closeTag] using this
  · simp only [hm, hn, or_self, if_false]
    have h1 := balanced_wrap { Space := "", Local := m }
      [{ Name := { Space := "", Local := "xmlns" }, Value := n }] h
    have h2 := balanced_wrap { Space := "", Local := g.soapPrefix ++ ":Header" } [] h1
    simpa [openTag, openTagNs, closeTag] using h2

theorem bodySection_balanced (g : Globals) (m n : String)
    {run : List Token} (h : Balanced run) : Balanced (bodySection g m n run) := by
  have h1 := balanced_wrap { Space := "", Local := m }
    [{ Name := { Space := "", Local := "xmlns" }, Value := n }] h
  have h2 := balanced_wrap { Space := "", Local := g.soapPrefix ++ ":Body" } [] h1
  simpa [bodySection, openTag, openTagNs, closeTag] using h2

/-! ## The write loop -/

/-- An encoder that rejects nothing is handed every token. -/
theorem writeTokens_accepting (e : Encoder) (hacc : ∀ w t, e.EncodeToken w t = none) :
    ∀ (ts written : List Token), (writeTokens e written ts).written = written ++ ts := by
  intro ts
  induction ts with
  | nil =>
    intro written
    simp only [writeTokens]
    cases e.Flush written <;> simp
  | cons t rest ih =>
    intro written
    simp only [writeTokens, hacc]
    rw [ih]
    simp

/-- What the write loop hands over: the tokens up to and including the first
one the encoder rejects. -/
theorem writeTokens_written (e : Encoder) : ∀ (ts written : List Token),
    ∃ pre post, ts = pre ++ post ∧ (writeTokens e written ts).written = written ++ pre ∧
      (post ≠ [] → ∃ init t, pre = init ++ [t] ∧ e.EncodeToken (written ++ init) t ≠ none) ∧
      (∀ init t rest, pre = init ++ t :: rest → rest ≠ [] →
        e.EncodeToken (written ++ init) t = none) := by
  intro ts
  induction ts with
  | nil =>
    intro written
    refine ⟨[], [], rfl, ?_, ?_, ?_⟩
    · simp only [writeTokens]
      cases e.Flush written <;> simp
    · intro h; exact absurd rfl h
    · intro init t rest h
      simp at h
  | cons t rest ih =>
    intro written
    cases hacc : e.EncodeToken written t with
    | some err =>
      refine ⟨[t], rest, rfl, ?_, ?_, ?_⟩
      · simp [writeTokens, hacc]
      · intro _
        exact ⟨[], t, rfl, by simp [hacc]⟩
      · intro init t1 rest1 h hne
        have hl := congrArg List.length h
        cases rest1 with
        | nil => exact absurd rfl hne
        | cons _ _ => simp at hl; omega
    | none =>
      obtain ⟨pre, post, hts, hw, hlast, hinit⟩ := ih (written ++ [t])
      refine ⟨t :: pre, post, by simp [hts], ?_, ?_, ?_⟩
      · simp [writeTokens, hacc, hw]
      · intro hpost
        obtain ⟨init, t1, hpre, hrej⟩ := hlast hpost
        refine ⟨t :: init, t1, by simp [hpre], ?_⟩
        simpa using hrej
      · intro init t1 rest1 h hne
        cases init with
        | nil =>
          simp at h
          rw [← h.1]
          simpa using hacc
        | cons t0 init0 =>
          simp at h
          have := hinit init0 t1 rest1 h.2 hne
          rw [← h.1]
          simpa using this

/-! ## Strings -/

theorem append_left_cancel_string {p a b : String} (h : p ++ a = p ++ b) : a = b := by
  have h1 := congrArg String.data h
  simp only [String.data_append] at h1
  exact String.ext (List.append_cancel_left h1)

/-! ## Decimal digits -/

theorem toDigitsCore_acc : ∀ (fuel n : Nat) (ds : List Char),
    Nat.toDigitsCore 10 fuel n ds = Nat.toDigitsCore 10 fuel n [] ++ ds := by
  intro fuel
  induction fuel with
  | zero => intro n ds; simp [Nat.toDigitsCore]
  | succ fuel ih =>
    intro n ds
    simp only [Nat.toDigitsCore]
    by_cases h : n / 10 = 0
    · simp [h]
    · simp only [h, if_false]
      rw [ih (n / 10) (Nat.digitChar (n % 10) :: ds), ih (n / 10) [Nat.digitChar (n % 10)]]
      simp

theorem toDigitsCore_fuel : ∀ (fuel1 fuel2 n : Nat), n < fuel1 → n < fuel2 →
    Nat.toDigitsCore 10 fuel1 n [] = Nat.toDigitsCore 10 fuel2 n [] := by
  intro fuel1
  induction fuel1 with
  | zero => intro fuel2 n h; omega
  | succ fuel1 ih =>
    intro fuel2 n h1 h2
    cases fuel2 with
    | zero => omega
    | succ fuel2 =>
      simp only [Nat.toDigitsCore]
      by_cases h : n / 10 = 0
      · simp [h]
      · simp only [h, if_false]
        rw [toDigitsCore_acc fuel1, toDigitsCore_acc fuel2]
        have hlt : n / 10 < n := Nat.div_lt_self (by omega) (by omega)
        rw [ih fuel2 (n / 10) (by omega) (by omega)]

/-- The digits of `n`: one digit below ten, otherwise the digits of `n / 10`
followed by the last digit. -/
theorem toDigits_rec (n : Nat) :
    Nat.toDigits 10 n =
      if n < 10 then [Nat.digitChar n]
      else Nat.toDigits 10 (n / 10) ++ [Nat.digitChar (n % 10)] := by
  unfold Nat.toDigits
  by_cases h : n < 10
  · have h0 : n / 10 = 0 := by omega
    have h1 : n % 10 = n := by omega
    simp [Nat.toDigitsCore, h, h0, h1]
  · have h0 : ¬ n / 10 = 0 := by omega
    have hL : Nat.toDigitsCore 10 (n + 1) n [] =
        Nat.toDigitsCore 10 n (n / 10) [Nat.digitChar (n % 10)] := by
      simp [Nat.toDigitsCore, h0]
    simp only [h, if_false]
    rw [hL, toDigitsCore_acc,
      toDigitsCore_fuel n (n / 10 + 1) (n / 10) (by omega) (by omega)]

theorem digitValue_digitChar (d : Nat) (h : d < 10) :
    digitValue (Nat.digitChar d) = some d := by
  interval_cases d <;> decide

theorem parseDigits_snoc (c : Char) : ∀ (cs : List Char) (acc : Nat),
    parseDigits acc (cs ++ [c]) =
      (parseDigits acc cs).bind (fun v => (digitValue c).map (fun d => 10 * v + d)) := by
  intro cs
  induction cs with
  | nil =>
    intro acc
    simp only [List.nil_append, parseDigits, Option.some_bind]
    cases digitValue c <;> simp
  | cons x xs ih =>
    intro acc
    simp only [List.cons_append, parseDigits]
    cases digitValue x with
    | none => simp
    | some d => simp [ih]

/-- Reading the digits of `n` gives `n` back. -/
theorem parseDigits_toDigits (n : Nat) : parseDigits 0 (Nat.toDigits 10 n) = some n := by
  induction n using Nat.strong_induction_on with
  | _ n ih =>
    rw [toDigits_rec]
    by_cases h : n < 10
    · simp [h, parseDigits, digitValue_digitChar n h]
    · simp only [h, if_false]
      rw [parseDigits_snoc, ih (n / 10) (by omega),
        digitValue_digitChar (n % 10) (Nat.mod_lt _ (by omega))]
      simp only [Option.some_bind, Option.map_some', Option.some.injEq]
      omega

theorem toDigits_ne_nil (n : Nat) : Nat.toDigits 10 n ≠ [] := by
  rw [toDigits_rec]
  by_cases h : n < 10 <;> simp [h]

/-- The digits of `n` are canonical. -/
theorem canonicalDigits_toDigits (n : Nat) : CanonicalDigits (Nat.toDigits 10 n) := by
  induction n using Nat.strong_induction_on with
  | _ n ih =>
    refine ⟨toDigits_ne_nil n, ?_, ?_⟩
    · rw [toDigits_rec]
      by_cases h : n < 10
      · simp [h, digitValue_digitChar n h]
      · simp only [h, if_false]
        intro c hc
        rcases List.mem_append.mp hc with hc | hc
        · exact (ih (n / 10) (by omega)).2.1 c hc
        · simp only [List.mem_singleton] at hc
          rw [hc, digitValue_digitChar (n % 10) (Nat.mod_lt _ (by omega))]
          simp
    · rw [toDigits_rec]
      by_cases h : n < 10
      · simp only [h, if_true, List.head?_cons, Option.some.injEq]
        intro hc
        rw [hc]
      · simp only [h, if_false]
        intro hc
        exfalso
        have hne := toDigits_ne_nil (n / 10)
        have hhead : (Nat.toDigits 10 (n / 10)).head? = some '0' := by
          cases hd : Nat.toDigits 10 (n / 10) with
          | nil => exact absurd hd hne
          | cons x xs => rw [hd] at hc; simpa using hc
        have hz := (ih (n / 10) (by omega)).2.2 hhead
        have hp := parseDigits_toDigits (n / 10)
        rw [hz] at hp
        have h0 : parseDigits 0 ['0'] = some 0 := by decide
        rw [h0] at hp
        have := Option.some.inj hp
        omega

/-! ## The claims -/

/-- C1: when the definitions are present, the method and the resolved namespace
are not empty and the encoder completes on the header params (if any) and on the
body params, `MarshalXML` builds a token sequence, and that sequence is
well-formed: the stack-based tag matcher accepts every close tag and ends on the
empty stack.  An encoder that rejects nothing is handed exactly that sequence. -/
theorem MarshalXML_sequence_wellFormed (g : Globals) (c : process) (d : wsdlDefinitions)
    (e : Encoder) (hd : c.Client.Definitions = some d)
    (hm : c.Request.Method ≠ "") (hn : resolveNamespace d ≠ "")
    (hh : isNil c.Client.HeaderParams = true ∨ encode c.Client.HeaderParams ≠ none)
    (hb : encode c.Request.Params ≠ none) :
    ∃ tokens, assemble g c (resolveNamespace d) = some (tokens, none) ∧
      WellFormed tokens.data ∧
      ((∀ w t, e.EncodeToken w t = none) → (MarshalXML g c e).written = tokens.data) := by
  obtain ⟨run, hrun⟩ := Option.ne_none_iff_exists'.mp hb
  have hbal := bodySection_balanced g c.Request.Method (resolveNamespace d)
    (encode_balanced _ run hrun)
  have hmn : ¬ (c.Request.Method = "" ∨ resolveNamespace d = "") := by
    intro h; cases h with
    | inl h => exact hm h
    | inr h => exact hn h
  have key : ∃ hdr, Balanced hdr ∧ assemble g c (resolveNamespace d) =
      some ({ data := openEnvelope g :: (hdr ++
        bodySection g c.Request.Method (resolveNamespace d) run ++
          [closeTag (g.soapPrefix ++ ":Envelope")]) }, none) := by
    rw [assemble_eq]
    cases hnil : isNil c.Client.HeaderParams with
    | true =>
      exact ⟨[], balanced_nil, by simp [hmn, hrun]⟩
    | false =>
      have hh1 : encode c.Client.HeaderParams ≠ none := by
        cases hh with
        | inl h => rw [hnil] at h; cases h
        | inr h => exact h
      obtain ⟨hrun1, hhrun⟩ := Option.ne_none_iff_exists'.mp hh1
      exact ⟨headerSection g c.Client.HeaderName (resolveNamespace d) hrun1,
        headerSection_balanced g _ _ hn (encode_balanced _ hrun1 hhrun),
        by simp [hmn, hrun, hhrun]⟩
  obtain ⟨hdr, hhdr, hasm⟩ := key
  refine ⟨_, hasm, ?_, ?_⟩
  · have h := balanced_wrap { Space := "", Local := g.soapPrefix ++ ":Envelope" }
      (envelopeAttrs g) (balanced_append hhdr hbal)
    have h2 := h []
    simpa [WellFormed, openEnvelope, closeTag] using h2
  · intro hacc
    simp only [MarshalXML, hd, hasm]
    rw [writeTokens_accepting e hacc]
    simp

/-- C1, at scenario C with an encoder that rejects nothing. -/
theorem MarshalXML_sequence_wellFormed_witness :
    ∃ tokens, assemble Globals.init scenarioC (resolveNamespace (definitionsWith "urn:h")) =
        some (tokens, none) ∧
      WellFormed tokens.data ∧
      ((∀ w t, acceptAll.EncodeToken w t = none) →
        (MarshalXML Globals.init scenarioC acceptAll).written = tokens.data) :=
  MarshalXML_sequence_wellFormed Globals.init scenarioC (definitionsWith "urn:h") acceptAll
    rfl (by decide) (by decide) (Or.inr (by decide)) (by decide)

/-- C2: the encoder does raise.  On the map `{"k": nil}`, on the 2-element
array `[2]int{1, 2}` and on a struct with one non-exported field
`recursiveEncode` panics instead of appending a fallback text token. -/
theorem recursiveEncode_panics :
    recursiveEncode { data := [] } (.Map [(.Str "k", .Nil)]) = none ∧
    recursiveEncode { data := [] } (.Array [.Int .Int 1, .Int .Int 2]) = none ∧
    recursiveEncode { data := [] }
      (.Struct [({ Name := "secret", TagXml := "", Exported := false }, .Int .Int 1)]) = none := by
  decide

/-- C3, as amended: without a definitions model, or with an empty method or an
empty resolved namespace once the encoder has completed on the header params (if
any), `MarshalXML` returns an error and hands the encoder no token, whatever the
body params.  Otherwise, when the encoder completes on the params, the encoder is
handed the assembled sequence in order up to and including the first token it
rejects: every token before the last one handed over was accepted, and if tokens
are left over the last one handed over was rejected. -/
theorem MarshalXML_handoff (g : Globals) (c : process) (e : Encoder) :
    (c.Client.Definitions = none →
      MarshalXML g c e = { written := [], ret := .error "definitions is nil" }) ∧
    (∀ d, c.Client.Definitions = some d →
      (c.Request.Method = "" ∨ resolveNamespace d = "") →
      (isNil c.Client.HeaderParams = true ∨ encode c.Client.HeaderParams ≠ none) →
      MarshalXML g c e = { written := [], ret := .error "method or namespace is empty" }) ∧
    (∀ d, c.Client.Definitions = some d →
      c.Request.Method ≠ "" → resolveNamespace d ≠ "" →
      (isNil c.Client.HeaderParams = true ∨ encode c.Client.HeaderParams ≠ none) →
      encode c.Request.Params ≠ none →
      ∃ tokens, assemble g c (resolveNamespace d) = some (tokens, none) ∧
        ∃ pre post, tokens.data = pre ++ post ∧ (MarshalXML g c e).written = pre ∧
          (post ≠ [] → ∃ init t, pre = init ++ [t] ∧ e.EncodeToken init t ≠ none) ∧
          (∀ init t rest, pre = init ++ t :: rest → rest ≠ [] →
            e.EncodeToken init t = none)) := by
  refine ⟨?_, ?_, ?_⟩
  · intro hd
    simp [MarshalXML, hd]
  · intro d hd hmn hh
    have hasm : ∃ tokens, assemble g c (resolveNamespace d) =
        some (tokens, some "method or namespace is empty") := by
      rw [assemble_eq]
      cases hnil : isNil c.Client.HeaderParams with
      | true => simp [hmn]
      | false =>
        have hh1 : encode c.Client.HeaderParams ≠ none := by
          cases hh with
          | inl h => rw [hnil] at h; cases h
          | inr h => exact h
        obtain ⟨hrun1, hhrun⟩ := Option.ne_none_iff_exists'.mp hh1
        simp [hmn, hhrun]
    obtain ⟨tokens, hasm⟩ := hasm
    simp [MarshalXML, hd, hasm]
  · intro d hd hm hn hh hb
    obtain ⟨run, hrun⟩ := Option.ne_none_iff_exists'.mp hb
    have hmn : ¬ (c.Request.Method = "" ∨ resolveNamespace d = "") := by
      intro h; cases h with
      | inl h => exact hm h
      | inr h => exact hn h
    have hasm : ∃ tokens, assemble g c (resolveNamespace d) = some (tokens, none) := by
      rw [assemble_eq]
      cases hnil : isNil c.Client.HeaderParams with
      | true => simp [hmn, hrun]
      | false =>
        have hh1 : encode c.Client.HeaderParams ≠ none := by
          cases hh with
          | inl h => rw [hnil] at h; cases h
          | inr h => exact h
        obtain ⟨hrun1, hhrun⟩ := Option.ne_none_iff_exists'.mp hh1
        simp [hmn, hrun, hhrun]
    obtain ⟨tokens, hasm⟩ := hasm
    refine ⟨tokens, hasm, ?_⟩
    obtain ⟨pre, post, hts, hw, hlast, hinit⟩ := writeTokens_written e tokens.data []
    refine ⟨pre, post, hts, ?_, ?_, ?_⟩
    · simp [MarshalXML, hd, hasm, hw]
    · simpa using hlast
    · simpa using hinit

/-- C3 as amended, at three requests: no definitions model, an empty method,
and scenario C with an encoder that rejects nothing. -/
theorem MarshalXML_handoff_witness :
    MarshalXML Globals.init noDefinitions acceptAll =
      { written := [], ret := .error "definitions is nil" } ∧
    MarshalXML Globals.init emptyMethod acceptAll =
      { written := [], ret := .error "method or namespace is empty" } ∧
    (∃ tokens, assemble Globals.init scenarioC (resolveNamespace (definitionsWith "urn:h")) =
        some (tokens, none) ∧
      ∃ pre post, tokens.data = pre ++ post ∧
        (MarshalXML Globals.init scenarioC acceptAll).written = pre ∧
        (post ≠ [] → ∃ init t, pre = init ++ [t] ∧ acceptAll.EncodeToken init t ≠ none) ∧
        (∀ init t rest, pre = init ++ t :: rest → rest ≠ [] →
          acceptAll.EncodeToken init t = none)) :=
  ⟨(MarshalXML_handoff Globals.init noDefinitions acceptAll).1 rfl,
   (MarshalXML_handoff Globals.init emptyMethod acceptAll).2.1 (definitionsWith "urn:h") rfl
      (Or.inl rfl) (Or.inr (by decide)),
   (MarshalXML_handoff Globals.init scenarioC acceptAll).2.2 (definitionsWith "urn:h") rfl
      (by decide) (by decide) (Or.inr (by decide)) (by decide)⟩

/-- C3 as stated fails: with the definitions present, the method `DoWork` and
the namespace `urn:test`, the body params `{"": "y"}` assemble into nine tokens,
but an encoder that refuses a start tag without a name is handed only the first
four, and `MarshalXML` returns its error. -/
theorem MarshalXML_handoff_counterexample :
    emptyKeyBody.Client.Definitions = some (definitionsWith "urn:test") ∧
    emptyKeyBody.Request.Method ≠ "" ∧
    resolveNamespace (definitionsWith "urn:test") ≠ "" ∧
    assemble Globals.init emptyKeyBody (resolveNamespace (definitionsWith "urn:test")) =
      some ({ data :=
        [openEnvelope Globals.init, openTag "soap:Body", openTagNs "DoWork" "urn:test",
         openTag "", .CharData "y", closeTag "",
         closeTag "DoWork", closeTag "soap:Body", closeTag "soap:Envelope"] }, none) ∧
    MarshalXML Globals.init emptyKeyBody namedTagsOnly =
      { written :=
          [openEnvelope Globals.init, openTag "soap:Body", openTagNs "DoWork" "urn:test",
           openTag ""],
        ret := .error "xml: start tag with no name" } := by
  decide

/-- C4: `startBody` returns an error exactly when the method or the namespace
is empty; then the accumulator is unchanged; otherwise it appends
`Open(prefix:Body)` without attributes and then `Open(method)` with the single
attribute `xmlns = namespace`, and nothing else. -/
theorem startBody_spec (g : Globals) (tokens : tokenData) (m n : String) :
    ((startBody g tokens m n).2 ≠ none ↔ (m = "" ∨ n = "")) ∧
    ((m = "" ∨ n = "") → (startBody g tokens m n).1 = tokens) ∧
    (¬ (m = "" ∨ n = "") →
      startBody g tokens m n =
        ({ data := tokens.data ++
            [.StartElement { Space := "", Local := g.soapPrefix ++ ":Body" } [],
             .StartElement { Space := "", Local := m }
               [{ Name := { Space := "", Local := "xmlns" }, Value := n }]] }, none)) := by
  rw [startBody_eq]
  by_cases h : m = "" ∨ n = ""
  · simp [h]
  · simp [h, tokenData.append, openTag, openTagNs]

/-- C4, at an empty method and at the method `DoWork` with namespace
`urn:test`. -/
theorem startBody_spec_witness :
    (startBody Globals.init { data := [.CharData "t"] } "" "urn:test").1 =
      { data := [.CharData "t"] } ∧
    startBody Globals.init { data := [.CharData "t"] } "DoWork" "urn:test" =
      ({ data := [.CharData "t"] ++
          [.StartElement { Space := "", Local := "soap" ++ ":Body" } [],
           .StartElement { Space := "", Local := "DoWork" }
             [{ Name := { Space := "", Local := "xmlns" }, Value := "urn:test" }]] }, none) :=
  ⟨(startBody_spec Globals.init { data := [.CharData "t"] } "" "urn:test").2.1 (Or.inl rfl),
   (startBody_spec Globals.init { data := [.CharData "t"] } "DoWork" "urn:test").2.2
     (by decide)⟩

/-- C5: with no header params, a non-empty method `m` and namespace `ns`, and
body params on which the encoder appends `run`, the assembled sequence is
exactly `Open(prefix:Envelope, attrs), Open(prefix:Body), Open(m, [xmlns=ns])`,
then `run`, then `Close(m), Close(prefix:Body), Close(prefix:Envelope)`; an
encoder that rejects nothing is handed exactly this sequence.  The header step
contributes no token: a tag named `prefix:Header` in the sequence can only be
the method element or come from `run`. -/
theorem assemble_without_header (g : Globals) (c : process) (d : wsdlDefinitions)
    (run : List Token) (hd : c.Client.Definitions = some d)
    (hp : isNil c.Client.HeaderParams = true)
    (hm : c.Request.Method ≠ "") (hn : resolveNamespace d ≠ "")
    (hb : encode c.Request.Params = some run) :
    assemble g c (resolveNamespace d) =
      some ({ data :=
        [openEnvelope g, openTag (g.soapPrefix ++ ":Body"),
          openTagNs c.Request.Method (resolveNamespace d)] ++ run ++
        [closeTag c.Request.Method, closeTag (g.soapPrefix ++ ":Body"),
          closeTag (g.soapPrefix ++ ":Envelope")] }, none) ∧
    (MarshalXML g c acceptAll).written =
        [openEnvelope g, openTag (g.soapPrefix ++ ":Body"),
          openTagNs c.Request.Method (resolveNamespace d)] ++ run ++
        [closeTag c.Request.Method, closeTag (g.soapPrefix ++ ":Body"),
          closeTag (g.soapPrefix ++ ":Envelope")] ∧
    (∀ t ∈ [openEnvelope g, openTag (g.soapPrefix ++ ":Body"),
          openTagNs c.Request.Method (resolveNamespace d)] ++ run ++
        [closeTag c.Request.Method, closeTag (g.soapPrefix ++ ":Body"),
          closeTag (g.soapPrefix ++ ":Envelope")],
      IsHeaderToken g t →
        t ∈ run ∨ t = openTagNs c.Request.Method (resolveNamespace d) ∨
          t = closeTag c.Request.Method) := by
  have hmn : ¬ (c.Request.Method = "" ∨ resolveNamespace d = "") := by
    intro h; cases h with
    | inl h => exact hm h
    | inr h => exact hn h
  have hasm : assemble g c (resolveNamespace d) =
      some ({ data :=
        [openEnvelope g, openTag (g.soapPrefix ++ ":Body"),
          openTagNs c.Request.Method (resolveNamespace d)] ++ run ++
        [closeTag c.Request.Method, closeTag (g.soapPrefix ++ ":Body"),
          closeTag (g.soapPrefix ++ ":Envelope")] }, none) := by
    rw [assemble_eq]
    simp [hp, hmn, hb, bodySection]
  refine ⟨hasm, ?_, ?_⟩
  · simp only [MarshalXML, hd, hasm]
    rw [writeTokens_accepting acceptAll (fun _ _ => rfl)]
    simp
  · intro t ht hhdr
    simp only [List.mem_append, List.mem_cons, List.mem_singleton, List.not_mem_nil,
      or_false] at ht
    rcases ht with ((h | h | h) | h) | (h | h | h)
    · exfalso
      subst h
      simp only [IsHeaderToken, openEnvelope, tokenName, Option.some.injEq] at hhdr
      exact absurd (append_left_cancel_string hhdr) (by decide)
    · exfalso
      subst h
      simp only [IsHeaderToken, openTag, tokenName, Option.some.injEq] at hhdr
      exact absurd (append_left_cancel_string hhdr) (by decide)
    · exact Or.inr (Or.inl h)
    · exact Or.inl h
    · exact Or.inr (Or.inr h)
    · exfalso
      subst h
      simp only [IsHeaderToken, closeTag, tokenName, Option.some.injEq] at hhdr
      exact absurd (append_left_cancel_string hhdr) (by decide)
    · exfalso
      subst h
      simp only [IsHeaderToken, closeTag, tokenName, Option.some.injEq] at hhdr
      exact absurd (append_left_cancel_string hhdr) (by decide)

/-- C5, at scenario B: the nine tokens, none of them a Header token. -/
theorem assemble_without_header_witness :
    assemble Globals.init scenarioB (resolveNamespace (definitionsWith "urn:test")) =
      some ({ data :=
        [openEnvelope Globals.init, openTag "soap:Body", openTagNs "DoWork" "urn:test",
         openTag "x", .CharData "y", closeTag "x",
         closeTag "DoWork", closeTag "soap:Body", closeTag "soap:Envelope"] }, none) ∧
    (MarshalXML Globals.init scenarioB acceptAll).written =
        [openEnvelope Globals.init, openTag "soap:Body", openTagNs "DoWork" "urn:test",
         openTag "x", .CharData "y", closeTag "x",
         closeTag "DoWork", closeTag "soap:Body", closeTag "soap:Envelope"] ∧
    (∀ t ∈ [openEnvelope Globals.init, openTag "soap:Body", openTagNs "DoWork" "urn:test",
         openTag "x", .CharData "y", closeTag "x",
         closeTag "DoWork", closeTag "soap:Body", closeTag "soap:Envelope"],
      ¬ IsHeaderToken Globals.init t) :=
  have h := assemble_without_header Globals.init scenarioB (definitionsWith "urn:test")
    [openTag "x", .CharData "y", closeTag "x"] rfl rfl (by decide) (by decide) (by decide)
  ⟨h.1, h.2.1, by decide⟩

/-- C6: with header params on which the encoder appends `hrun`, a non-empty
header name `n` and a non-empty namespace `ns`, the assembled sequence is the
envelope open tag, then exactly
`Open(prefix:Header), Open(n, [xmlns=ns])`, `hrun`, `Close(n), Close(prefix:Header)`,
then the body open tags `Open(prefix:Body), Open(m, [xmlns=ns])` with the same
`ns`, the body tokens and the closing tags. -/
theorem assemble_with_header (g : Globals) (c : process) (d : wsdlDefinitions)
    (hrun run : List Token) (hd : c.Client.Definitions = some d)
    (hp : isNil c.Client.HeaderParams = false)
    (hname : c.Client.HeaderName ≠ "") (hn : resolveNamespace d ≠ "")
    (hm : c.Request.Method ≠ "")
    (hh : encode c.Client.HeaderParams = some hrun)
    (hb : encode c.Request.Params = some run) :
    assemble g c (resolveNamespace d) =
      some ({ data :=
        [openEnvelope g] ++
        ([openTag (g.soapPrefix ++ ":Header"),
          openTagNs c.Client.HeaderName (resolveNamespace d)] ++ hrun ++
         [closeTag c.Client.HeaderName, closeTag (g.soapPrefix ++ ":Header")]) ++
        [openTag (g.soapPrefix ++ ":Body"),
          openTagNs c.Request.Method (resolveNamespace d)] ++ run ++
        [closeTag c.Request.Method, closeTag (g.soapPrefix ++ ":Body"),
          closeTag (g.soapPrefix ++ ":Envelope")] }, none) ∧
    (MarshalXML g c acceptAll).written =
        [openEnvelope g] ++
        ([openTag (g.soapPrefix ++ ":Header"),
          openTagNs c.Client.HeaderName (resolveNamespace d)] ++ hrun ++
         [closeTag c.Client.HeaderName, closeTag (g.soapPrefix ++ ":Header")]) ++
        [openTag (g.soapPrefix ++ ":Body"),
          openTagNs c.Request.Method (resolveNamespace d)] ++ run ++
        [closeTag c.Request.Method, closeTag (g.soapPrefix ++ ":Body"),
          closeTag (g.soapPrefix ++ ":Envelope")] := by
  have hasm : assemble g c (resolveNamespace d) =
      some ({ data :=
        [openEnvelope g] ++
        ([openTag (g.soapPrefix ++ ":Header"),
          openTagNs c.Client.HeaderName (resolveNamespace d)] ++ hrun ++
         [closeTag c.Client.HeaderName, closeTag (g.soapPrefix ++ ":Header")]) ++
        [openTag (g.soapPrefix ++ ":Body"),
          openTagNs c.Request.Method (resolveNamespace d)] ++ run ++
        [closeTag c.Request.Method, closeTag (g.soapPrefix ++ ":Body"),
          closeTag (g.soapPrefix ++ ":Envelope")] }, none) := by
    rw [assemble_eq]
    simp [hp, hm, hb, hh, bodySection, headerSection_eq, hname, hn]
  refine ⟨hasm, ?_⟩
  simp only [MarshalXML, hd, hasm]
  rw [writeTokens_accepting acceptAll (fun _ _ => rfl)]
  simp

/-- C6, at scenario C: the seven tokens of the header section between the
envelope open tag and the body open tag. -/
theorem assemble_with_header_witness :
    assemble Globals.init scenarioC (resolveNamespace (definitionsWith "urn:h")) =
      some ({ data :=
        [openEnvelope Globals.init,
         openTag "soap:Header", openTagNs "Auth" "urn:h",
         openTag "token", .CharData "abc", closeTag "token",
         closeTag "Auth", closeTag "soap:Header",
         openTag "soap:Body", openTagNs "DoWork" "urn:h",
         openTag "x", .CharData "y", closeTag "x",
         closeTag "DoWork", closeTag "soap:Body", closeTag "soap:Envelope"] }, none) :=
  (assemble_with_header Globals.init scenarioC (definitionsWith "urn:h")
    [openTag "token", .CharData "abc", closeTag "token"]
    [openTag "x", .CharData "y", closeTag "x"]
    rfl rfl (by decide) (by decide) (by decide) (by decide) (by decide)).1

/-- C7: for an integer of any signed or unsigned kind, a boolean or a string,
`recursiveEncode` appends exactly one token, a text token.  For an integer its
content is the canonical decimal text: digits only, no leading zero, a `-` sign
in front exactly for a negative value, and reading the text back gives the
value.  For a boolean it is `true` or `false`, for a string the string itself. -/
theorem recursiveEncode_scalar (tokens : tokenData) :
    (∀ (k : IntKind) (i : Int),
      recursiveEncode tokens (.Int k i) =
        some { data := tokens.data ++ [.CharData (FormatInt i)] } ∧
      parseInt (FormatInt i) = some i ∧
      (if i < 0 then ∃ cs, (FormatInt i).data = '-' :: cs ∧ CanonicalDigits cs ∧ cs ≠ ['0']
       else CanonicalDigits (FormatInt i).data)) ∧
    (∀ (k : UintKind) (u : Nat),
      recursiveEncode tokens (.Uint k u) =
        some { data := tokens.data ++ [.CharData (FormatUint u)] } ∧
      parseUint (FormatUint u) = some u ∧
      CanonicalDigits (FormatUint u).data) ∧
    (∀ b : Bool,
      recursiveEncode tokens (.Bool b) =
        some { data := tokens.data ++ [.CharData (if b then "true" else "false")] }) ∧
    (∀ (exact : Bool) (s : String),
      recursiveEncode tokens (.String exact s) =
        some { data := tokens.data ++ [.CharData s] }) := by
  refine ⟨?_, ?_, ?_, ?_⟩
  · intro k i
    refine ⟨by simp [recursiveEncode, tokenData.append], ?_, ?_⟩
    · by_cases hi : i < 0
      · have hd : (FormatInt i).data = '-' :: Nat.toDigits 10 i.natAbs := by
          simp [FormatInt, hi, FormatUint]
        simp only [parseInt, hd, if_true, toDigits_ne_nil, if_false,
          parseDigits_toDigits, Option.map_some', Option.some.injEq]
        show -Int.ofNat i.natAbs = i
        simp only [Int.ofNat_eq_coe]
        omega
      · have hd : (FormatInt i).data = Nat.toDigits 10 i.natAbs := by
          simp [FormatInt, hi, FormatUint]
        have hcan := canonicalDigits_toDigits i.natAbs
        have hp := parseDigits_toDigits i.natAbs
        simp only [parseInt, hd]
        cases hcs : Nat.toDigits 10 i.natAbs with
        | nil => exact absurd hcs (toDigits_ne_nil _)
        | cons c cs =>
          have hc : c ≠ '-' := by
            intro h
            have := hcan.2.1 c (by rw [hcs]; simp)
            rw [h] at this
            exact this (by decide)
          rw [hcs] at hp
          simp only [hc, if_false, hp, Option.map_some', Option.some.injEq]
          show Int.ofNat i.natAbs = i
          simp only [Int.ofNat_eq_coe]
          omega
    · by_cases hi : i < 0
      · simp only [hi, if_true]
        refine ⟨Nat.toDigits 10 i.natAbs, by simp [FormatInt, hi, FormatUint],
          canonicalDigits_toDigits _, ?_⟩
        intro hz
        have hp := parseDigits_toDigits i.natAbs
        rw [hz] at hp
        have h0 : parseDigits 0 ['0'] = some 0 := by decide
        rw [h0] at hp
        have := Option.some.inj hp
        omega
      · simp only [hi, if_false]
        have hd : (FormatInt i).data = Nat.toDigits 10 i.natAbs := by
          simp [FormatInt, hi, FormatUint]
        rw [hd]
        exact canonicalDigits_toDigits _
  · intro k u
    refine ⟨by simp [recursiveEncode, tokenData.append], ?_, ?_⟩
    · simp [parseUint, FormatUint, toDigits_ne_nil, parseDigits_toDigits]
    · exact canonicalDigits_toDigits u
  · intro b
    cases b <;> simp [recursiveEncode, tokenData.append, FormatBool]
  · intro exact s
    simp [recursiveEncode, tokenData.append]

/-- C7, at rows of the test table: `int32(32)`, `uint8(8)`, `true`, `"hello"`. -/
theorem recursiveEncode_scalar_witness :
    recursiveEncode { data := [] } (.Int .Int32 32) = some { data := [.CharData "32"] } ∧
    recursiveEncode { data := [] } (.Uint .Uint8 8) = some { data := [.CharData "8"] } ∧
    recursiveEncode { data := [] } (.Bool true) = some { data := [.CharData "true"] } ∧
    recursiveEncode { data := [] } (.String true "hello") =
      some { data := [.CharData "hello"] } :=
  ⟨((recursiveEncode_scalar { data := [] }).1 .Int32 32).1,
   ((recursiveEncode_scalar { data := [] }).2.1 .Uint8 8).1,
   (recursiveEncode_scalar { data := [] }).2.2.1 true,
   (recursiveEncode_scalar { data := [] }).2.2.2 true "hello"⟩

/-- C8: the code does not give a 32-bit float its shortest decimal text.
`13170115 * 2 ^ (-22)` is the 32-bit float nearest to 3.14 (a 24-bit mantissa
within half a unit of `3.14 * 2 ^ 22`), and for it `recursiveEncode` appends the
text `3.140000104904175`, the digits that identify its widening among the 64-bit
floats, not `3.14`.  The 64-bit float nearest to 2.718 is encoded as `2.718`. -/
theorem recursiveEncode_float32_widened :
    (2 ^ 23 ≤ 13170115 ∧ 13170115 < 2 ^ 24 ∧
      2 * (13170115 * 100 - 314 * 2 ^ 22) ≤ 100) ∧
    recursiveEncode { data := [] } (.Float32 float32_3_14) =
      some { data := [.CharData "3.140000104904175"] } ∧
    recursiveEncode { data := [] } (.Float32 float32_3_14) ≠
      some { data := [.CharData "3.14"] } ∧
    recursiveEncode { data := [] } (.Float64 float64_2_718) =
      some { data := [.CharData "2.718"] } := by
  decide

/-! ### Maps of scalars -/

/-- For a scalar other than a 32-bit float the encoder appends one text token
with the canonical text. -/
theorem encode_scalar (v : GoValue) (h : isScalar v = true) (h32 : isFloat32 v = false) :
    encode v = some [.CharData (canonicalText v)] := by
  cases v <;>
    simp_all [isScalar, isFloat32, encode, recursiveEncode, tokenData.append, canonicalText]

theorem encode_scalar_map : ∀ (entries : List (MapKey × GoValue)),
    (∀ entry ∈ entries, isScalar entry.2 = true ∧ isFloat32 entry.2 = false) →
    encode (.Map entries) = some (entries.flatMap entryTriple)
  | [], _ => by simp [encode_map_nil]
  | (key, value) :: rest, h => by
    have hv := h (key, value) (by simp)
    have hr := encode_scalar_map rest (fun entry he => h entry (by simp [he]))
    rw [encode_map_cons, encode_scalar value hv.1 hv.2, hr]
    simp [entryTriple]

theorem textContents_triples : ∀ (entries : List (MapKey × GoValue)),
    textContents (entries.flatMap entryTriple) =
      entries.map (fun entry => canonicalText entry.2)
  | [] => by simp [textContents]
  | entry :: rest => by
    have ih := textContents_triples rest
    rw [List.flatMap_cons, List.map_cons, ← ih]
    simp [entryTriple, textContents, openTag, closeTag]

/-- For a map `m` whose entries all hold scalars other than 32-bit floats, and
for every order `entries` in which the iteration yields them, `recursiveEncode`
appends exactly the triples `Open(key), Text(canonical text), Close(key)`, one
per entry in that order: three tokens per entry, and the text contents are, as a
multiset, the canonical texts of the values of `m`. -/
theorem encode_map_of_scalars (m : Multiset (MapKey × GoValue))
    (entries : List (MapKey × GoValue)) (tokens : tokenData)
    (horder : (entries : Multiset (MapKey × GoValue)) = m)
    (hs : ∀ entry ∈ m, isScalar entry.2 = true ∧ isFloat32 entry.2 = false) :
    ∃ run, recursiveEncode tokens (.Map entries) = some { data := tokens.data ++ run } ∧
      run = entries.flatMap entryTriple ∧
      run.length = 3 * Multiset.card m ∧
      (textContents run : Multiset String) = m.map (fun entry => canonicalText entry.2) := by
  subst horder
  have hs1 : ∀ entry ∈ entries, isScalar entry.2 = true ∧ isFloat32 entry.2 = false :=
    fun entry he => hs entry (by simpa using he)
  refine ⟨entries.flatMap entryTriple, ?_, rfl, ?_, ?_⟩
  · rw [recursiveEncode_eq, encode_scalar_map entries hs1]
    rfl
  · rw [List.length_flatMap]
    simp [entryTriple, Function.comp_def, Nat.mul_comm]
  · rw [textContents_triples]
    simp

/-- C9: the code does not give every scalar entry of a map its canonical text.
For the map `{"a": float32(3.14)}` `recursiveEncode` appends the triple
`Open(a), Text(3.140000104904175), Close(a)`, while the canonical text of the
value, the shortest decimal that round-trips to the 32-bit float, is `3.14`: the
appended triple is not `Open(a), Text(3.14), Close(a)`.  For the map
`{"a": 10, "b": 5}` it appends the six tokens with the texts `10` and `5`. -/
theorem recursiveEncode_map_float32_entry :
    recursiveEncode { data := [] } (.Map [(.Str "a", .Float32 float32_3_14)]) =
      some { data := [openTag "a", .CharData "3.140000104904175", closeTag "a"] } ∧
    canonicalText (.Float32 float32_3_14) = "3.14" ∧
    entryTriple (.Str "a", .Float32 float32_3_14) =
      [openTag "a", .CharData "3.14", closeTag "a"] ∧
    recursiveEncode { data := [] } (.Map [(.Str "a", .Float32 float32_3_14)]) ≠
      some { data := entryTriple (.Str "a", .Float32 float32_3_14) } ∧
    recursiveEncode { data := [] }
        (.Map [(.Str "a", .Int .Int 10), (.Str "b", .Int .Int 5)]) =
      some { data := [openTag "a", .CharData "10", closeTag "a",
                      openTag "b", .CharData "5", closeTag "b"] } := by
  decide

/-- C10: whatever the prefix, with no custom attributes configured
`startEnvelope` appends exactly one token, `Open(prefix:Envelope)`, with exactly
the three attributes `xmlns:xsi`, `xmlns:xsd`, `xmlns:soap`, in this order, with
their fixed values. -/
theorem startEnvelope_default_attrs (pfx : String) (tokens : tokenData) :
    startEnvelope { soapPrefix := pfx, customEnvelopeAttrs := none } tokens =
      { data := tokens.data ++
          [.StartElement { Space := "", Local := pfx ++ ":Envelope" }
            [ { Name := { Space := "", Local := "xmlns:xsi" },
                Value := "http://www.w3.org/2001/XMLSchema-instance" },
              { Name := { Space := "", Local := "xmlns:xsd" },
                Value := "http://www.w3.org/2001/XMLSchema" },
              { Name := { Space := "", Local := "xmlns:soap" },
                Value := "http://schemas.xmlsoap.org/soap/envelope/" } ]] } := by
  rfl

/-- C11: `SetCustomEnvelope(prefix, attrs)` always sets the prefix to the given
one; with `attrs` present, an empty set included, the custom attributes become
`attrs`; with `attrs` absent the custom attributes stay exactly as they were. -/
theorem SetCustomEnvelope_spec (g : Globals) (pfx : String) :
    (∀ attrs, (SetCustomEnvelope g pfx attrs).soapPrefix = pfx) ∧
    (∀ m, (SetCustomEnvelope g pfx (some m)).customEnvelopeAttrs = some m) ∧
    (SetCustomEnvelope g pfx none).customEnvelopeAttrs = g.customEnvelopeAttrs := by
  refine ⟨?_, ?_, ?_⟩
  · intro attrs
    cases attrs <;> rfl
  · intro m
    rfl
  · rfl

/-- C11, at a configuration that already has custom attributes: an absent
argument keeps them, an empty set replaces them. -/
theorem SetCustomEnvelope_spec_witness :
    (SetCustomEnvelope customGlobals "env" none).soapPrefix = "env" ∧
    (SetCustomEnvelope customGlobals "env" (some [])).customEnvelopeAttrs = some [] ∧
    (SetCustomEnvelope customGlobals "env" none).customEnvelopeAttrs =
      some [("xmlns:s", "urn:env")] :=
  ⟨(SetCustomEnvelope_spec customGlobals "env").1 none,
   (SetCustomEnvelope_spec customGlobals "env").2.1 [],
   (SetCustomEnvelope_spec customGlobals "env").2.2⟩

/-- C13: when the definitions model declares at least one type section, the
resolved namespace is the target namespace whenever that is not empty; with an
empty target namespace it is the namespace of the first import of the first
schema of the first type section when there is such an import, and the empty
string when that section has no schema or its first schema has no import. -/
theorem resolveNamespace_with_types (d : wsdlDefinitions) (types0 : wsdlTypes)
    (rest : List wsdlTypes) (h : d.Types = types0 :: rest) :
    (d.TargetNamespace ≠ "" → resolveNamespace d = d.TargetNamespace) ∧
    (d.TargetNamespace = "" →
      ∀ schema schemas imp imps, types0.XsdSchema = schema :: schemas →
        schema.Imports = imp :: imps → resolveNamespace d = imp.Namespace) ∧
    (d.TargetNamespace = "" →
      (types0.XsdSchema = [] ∨
        ∃ schema schemas, types0.XsdSchema = schema :: schemas ∧ schema.Imports = []) →
      resolveNamespace d = "") := by
  refine ⟨?_, ?_, ?_⟩
  · intro ht
    cases hs : types0.XsdSchema with
    | nil => simp [resolveNamespace, h, hs]
    | cons schema schemas => simp [resolveNamespace, h, hs, ht]
  · intro ht schema schemas imp imps hs hi
    simp [resolveNamespace, h, hs, ht, hi]
  · intro ht hcase
    rcases hcase with hs | ⟨schema, schemas, hs, hi⟩
    · simp [resolveNamespace, h, hs, ht]
    · simp [resolveNamespace, h, hs, ht, hi]

/-- C13, at a model with the target namespace `urn:h`, at one without target
namespace whose first schema imports `urn:imp`, and at one without any
namespace. -/
theorem resolveNamespace_with_types_witness :
    resolveNamespace (definitionsWith "urn:h") = "urn:h" ∧
    resolveNamespace importedNamespace = "urn:imp" ∧
    resolveNamespace noNamespaceAnywhere = "" :=
  ⟨(resolveNamespace_with_types (definitionsWith "urn:h") { XsdSchema := [] } [] rfl).1
     (by decide),
   (resolveNamespace_with_types importedNamespace
      { XsdSchema := [{ Imports := [{ Namespace := "urn:imp" },
                                    { Namespace := "urn:other" }] }] } [] rfl).2.1 rfl
      { Imports := [{ Namespace := "urn:imp" }, { Namespace := "urn:other" }] } []
      { Namespace := "urn:imp" } [{ Namespace := "urn:other" }] rfl rfl,
   (resolveNamespace_with_types noNamespaceAnywhere
      { XsdSchema := [{ Imports := [] }] } [] rfl).2.2 rfl
      (Or.inr ⟨{ Imports := [] }, [], rfl, rfl⟩)⟩

/-- C14: the code does not lower-case the first character of every field name.
For `struct{ Émission string }{"x"}` the element name is not `émission` (bytes
`C3 A9 6D ...`): `name[0:1]` is the single byte `C3`, which `strings.ToLower`
turns into the three bytes of U+FFFD, and the second byte `89` of `É` stays, so
the tags are named by the bytes `EF BF BD 89 6D ...`.  For a struct with a field
that is not exported `recursiveEncode` panics.  A tagged field and an untagged
field with an ASCII name are encoded as the claim says. -/
theorem recursiveEncode_struct_names :
    recursiveEncode { data := [] } accentedField =
      some { data := [openTag "\xEF\xBF\xBD\x89mission", .CharData "x",
                      closeTag "\xEF\xBF\xBD\x89mission"] } ∧
    recursiveEncode { data := [] } accentedField ≠
      some { data := [openTag "\xC3\xA9mission", .CharData "x",
                      closeTag "\xC3\xA9mission"] } ∧
    recursiveEncode { data := [] } hiddenField = none ∧
    recursiveEncode { data := [] } taggedRecord =
      some { data := [openTag "n", .CharData "a", closeTag "n",
                      openTag "age", .CharData "3", closeTag "age"] } := by
  decide

/-- C15: for a 2-element array whose element 0 is the string `name` and whose
element 1 is any value `v`, `recursiveEncode` appends exactly `Open(name)` without
attributes, the tokens of `v`, and `Close(name)`; it panics exactly when the
encoder panics on `v`. -/
theorem recursiveEncode_pair (tokens : tokenData) (name : String) (v : GoValue) :
    recursiveEncode tokens (.Array [.String true name, v]) =
      (encode v).map (fun run =>
        { data := tokens.data ++
            ([.StartElement { Space := "", Local := name } []] ++ run ++
             [.EndElement { Space := "", Local := name }]) }) := by
  rw [recursiveEncode_eq, encode_pair]
  cases encode v with
  | none => rfl
  | some run => simp [tokenData.append, openTag, closeTag]

/-- C15, at the pair `("id", 7)`. -/
theorem recursiveEncode_pair_witness :
    recursiveEncode { data := [.CharData "t"] } idPair =
      some { data := [.CharData "t", openTag "id", .CharData "7", closeTag "id"] } :=
  (recursiveEncode_pair { data := [.CharData "t"] } "id" (.Int .Int 7)).trans (by decide)

/-! ### Slices -/

theorem encode_slice_runs : ∀ (xs : List GoValue) (runs : List (List Token)),
    List.Forall₂ (fun x run => encode x = some run) xs runs →
    encode (.Slice xs) = some runs.flatten
  | [], [], _ => by simp [encode_slice_nil]
  | [], _ :: _, h => by cases h
  | _ :: _, [], h => by cases h
  | x :: xs, run :: runs, h => by
    cases h with
    | cons hx hrest =>
      rw [encode_slice_cons, hx, encode_slice_runs xs runs hrest]
      simp

theorem encode_slice_append : ∀ (xs ys : List GoValue),
    encode (.Slice (xs ++ ys)) =
      (encode (.Slice xs)).bind (fun a => (encode (.Slice ys)).map (fun b => a ++ b))
  | [], ys => by
    simp only [List.nil_append, encode_slice_nil, Option.some_bind]
    cases encode (.Slice ys) <;> simp
  | x :: xs, ys => by
    rw [List.cons_append, encode_slice_cons, encode_slice_cons, encode_slice_append xs ys]
    cases encode x with
    | none => simp
    | some r =>
      cases encode (.Slice xs) with
      | none => simp
      | some a =>
        cases encode (.Slice ys) with
        | none => simp
        | some b => simp

/-- C16: for a slice `[x1, ..., xn]` whose elements the encoder turns into the
runs `run1, ..., runn`, `recursiveEncode` keeps the accumulator content as a
prefix and appends `run1 ++ ... ++ runn`, in element order and with no token of
its own.  Hence the tokens of `xs ++ ys` are the tokens of `xs` followed by the
tokens of `ys`, and the empty slice appends nothing. -/
theorem recursiveEncode_slice (tokens : tokenData) (xs : List GoValue)
    (runs : List (List Token))
    (h : List.Forall₂ (fun x run => encode x = some run) xs runs) :
    recursiveEncode tokens (.Slice xs) = some { data := tokens.data ++ runs.flatten } ∧
    (∀ ys, encode (.Slice (xs ++ ys)) =
      (encode (.Slice ys)).map (fun b => runs.flatten ++ b)) ∧
    recursiveEncode tokens (.Slice []) = some tokens := by
  have hxs := encode_slice_runs xs runs h
  refine ⟨?_, ?_, ?_⟩
  · rw [recursiveEncode_eq, hxs]
    rfl
  · intro ys
    rw [encode_slice_append, hxs]
    rfl
  · rw [recursiveEncode_eq, encode_slice_nil]
    simp [tokenData.append]

/-- C16, at the slice `["a", 7]` on an accumulator that holds one token. -/
theorem recursiveEncode_slice_witness :
    recursiveEncode { data := [.CharData "t"] } (.Slice [.String true "a", .Int .Int 7]) =
      some { data := [.CharData "t"] ++ [[.CharData "a"], [.CharData "7"]].flatten } ∧
    (∀ ys, encode (.Slice ([.String true "a", .Int .Int 7] ++ ys)) =
      (encode (.Slice ys)).map
        (fun b => [[.CharData "a"], [.CharData "7"]].flatten ++ b)) ∧
    recursiveEncode { data := [.CharData "t"] } (.Slice []) =
      some { data := [.CharData "t"] } :=
  recursiveEncode_slice { data := [.CharData "t"] } [.String true "a", .Int .Int 7]
    [[.CharData "a"], [.CharData "7"]]
    (List.Forall₂.cons (by decide) (List.Forall₂.cons (by decide) List.Forall₂.nil))

/-! ### Custom envelope attributes -/

theorem foldl_customAttr (m : List (String × String)) : ∀ acc : List Attr,
    m.foldl (fun attr kv =>
      attr ++ [{ Name := { Space := "", Local := kv.1 }, Value := kv.2 }]) acc =
      acc ++ m.map customAttr := by
  induction m with
  | nil => intro acc; simp
  | cons kv rest ih =>
    intro acc
    simp only [List.foldl_cons, List.map_cons]
    rw [ih]
    simp [customAttr]

/-- C17: with custom attributes configured, the entries `m` in iteration order,
`startEnvelope` appends the single token `Open(prefix:Envelope)` whose
attributes are exactly one attribute per entry of `m`, with the name and the
value of that entry, and nothing else: as many attributes as entries, and every
attribute comes from an entry. -/
theorem startEnvelope_custom_attrs (pfx : String) (m : List (String × String))
    (tokens : tokenData) :
    startEnvelope { soapPrefix := pfx, customEnvelopeAttrs := some m } tokens =
      { data := tokens.data ++
          [.StartElement { Space := "", Local := pfx ++ ":Envelope" } (m.map customAttr)] } ∧
    (m.map customAttr).length = m.length ∧
    (∀ a, a ∈ m.map customAttr ↔
      ∃ kv ∈ m, a = { Name := { Space := "", Local := kv.1 }, Value := kv.2 }) := by
  refine ⟨?_, by simp, ?_⟩
  · simp only [startEnvelope, foldl_customAttr, List.nil_append]
    rfl
  · intro a
    simp only [List.mem_map, customAttr]
    constructor
    · rintro ⟨kv, hkv, rfl⟩
      exact ⟨kv, hkv, rfl⟩
    · rintro ⟨kv, hkv, rfl⟩
      exact ⟨kv, hkv, rfl⟩

/-- C17, at one configured attribute and at the empty configured set. -/
theorem startEnvelope_custom_attrs_witness :
    startEnvelope customGlobals { data := [] } =
      { data := [.StartElement { Space := "", Local := "s:Envelope" }
          [{ Name := { Space := "", Local := "xmlns:s" }, Value := "urn:env" }]] } ∧
    startEnvelope { soapPrefix := "soap", customEnvelopeAttrs := some [] } { data := [] } =
      { data := [.StartElement { Space := "", Local := "soap:Envelope" } []] } :=
  ⟨(startEnvelope_custom_attrs "s" [("xmlns:s", "urn:env")] { data := [] }).1,
   (startEnvelope_custom_attrs "soap" [] { data := [] }).1⟩

/-! ### The header wrapper -/

/-- The header wrapper is balanced when the header name is empty or the
namespace is not. -/
theorem headerSection_balanced_of (g : Globals) (m n : String) (h : m = "" ∨ n ≠ "")
    {run : List Token} (hrun : Balanced run) : Balanced (headerSection g m n run) := by
  rcases h with h | h
  · rw [headerSection_eq]
    simp only [h, true_or, if_true]
    have := balanced_wrap { Space := "", Local := g.soapPrefix ++ ":Header" } [] hrun
    simpa [openTag, closeTag] using this
  · exact headerSection_balanced g m n h hrun

/-- C18: the header wrapper is not balanced for a non-empty header name with an
empty namespace.  `startHeader("Auth", "")` appends `Open(soap:Header)` alone,
but `endHeader("Auth")` appends `Close(Auth)` and `Close(soap:Header)`; around
the tokens of `{"token": "abc"}` the tag matcher fails at `Close(Auth)`.
`MarshalXML` builds exactly this run when the namespace resolves to the empty
string, and then returns the error of `startBody`. -/
theorem header_wrapper_unbalanced :
    (startHeader Globals.init { data := [] } "Auth" "").data = [openTag "soap:Header"] ∧
    (endHeader Globals.init { data := [] } "Auth").data =
      [closeTag "Auth", closeTag "soap:Header"] ∧
    headerSection Globals.init "Auth" ""
        [openTag "token", .CharData "abc", closeTag "token"] =
      [openTag "soap:Header", openTag "token", .CharData "abc", closeTag "token",
       closeTag "Auth", closeTag "soap:Header"] ∧
    matchTags [] (headerSection Globals.init "Auth" ""
        [openTag "token", .CharData "abc", closeTag "token"]) = none ∧
    assemble Globals.init emptyNamespaceHeader (resolveNamespace noTypeSections) =
      some ({ data :=
        [openEnvelope Globals.init, openTag "soap:Header", openTag "token",
         .CharData "abc", closeTag "token", closeTag "Auth", closeTag "soap:Header"] },
        some "method or namespace is empty") := by
  decide

/-! ### Arrays that are no pair -/

/-- C19, as amended: an array whose length is not 2 is not treated as a named
pair, and `recursiveEncode` appends nothing for it: the accumulator is left as
it was. -/
theorem recursiveEncode_array_other_length (tokens : tokenData) (elems : List GoValue)
    (h : elems.length ≠ 2) :
    recursiveEncode tokens (.Array elems) = some tokens := by
  match elems, h with
  | [], _ => simp [recursiveEncode]
  | [_], _ => simp [recursiveEncode]
  | [_, _], h => exact absurd rfl h
  | _ :: _ :: _ :: _, _ => simp [recursiveEncode]

/-- C19 as amended, at `[3]int{1, 2, 3}`. -/
theorem recursiveEncode_array_other_length_witness :
    [GoValue.Int .Int 1, .Int .Int 2, .Int .Int 3].length ≠ 2 ∧
    recursiveEncode { data := [.CharData "t"] } threeInts =
      some { data := [.CharData "t"] } :=
  ⟨by decide,
   recursiveEncode_array_other_length { data := [.CharData "t"] }
     [.Int .Int 1, .Int .Int 2, .Int .Int 3] (by decide)⟩

/-- C19 as stated fails: for `[3]int{1, 2, 3}` `recursiveEncode` appends no
token, which is neither the sequence encoding `Text(1), Text(2), Text(3)` of its
elements nor a single text token. -/
theorem recursiveEncode_array_other_length_counterexample :
    encode threeInts = some [] ∧
    encode (.Slice [.Int .Int 1, .Int .Int 2, .Int .Int 3]) =
      some [.CharData "1", .CharData "2", .CharData "3"] ∧
    encode threeInts ≠ encode (.Slice [.Int .Int 1, .Int .Int 2, .Int .Int 3]) ∧
    (encode threeInts).map List.length ≠ some 1 := by
  decide

/-! ### Balance of the tokens of a value -/

theorem matchTags_counts : ∀ (ts : List Token) (stack stack1 : List Name),
    matchTags stack ts = some stack1 →
    stack1.length + countClose ts = stack.length + countOpen ts := by
  intro ts
  induction ts with
  | nil =>
    intro stack stack1 h
    simp only [matchTags, Option.some.injEq] at h
    simp [countOpen, countClose, h]
  | cons t ts ih =>
    intro stack stack1 h
    cases t with
    | StartElement name attr =>
      simp only [matchTags] at h
      have := ih _ _ h
      simp only [countOpen, countClose, List.length_cons] at this ⊢
      omega
    | CharData content =>
      simp only [matchTags] at h
      have := ih _ _ h
      simp only [countOpen, countClose] at this ⊢
      omega
    | EndElement name =>
      cases stack with
      | nil => simp [matchTags] at h
      | cons top stack =>
        by_cases hn : top = name
        · simp only [matchTags, hn, if_true] at h
          have := ih _ _ h
          simp only [countOpen, countClose, List.length_cons] at this ⊢
          omega
        · simp [matchTags, hn] at h

/-- C20: for every value on which the encoder completes, with the tokens `run`,
`recursiveEncode` appends `run` and `run` is a balanced run: from any stack the
tag matcher accepts every close tag (it carries the name of the most recent
unmatched open tag, and none meets an empty stack when started on the empty
one) and gets back to the stack it started from, and `run` has as many open
tags as close tags. -/
theorem recursiveEncode_balanced (tokens : tokenData) (v : GoValue) (run : List Token)
    (h : encode v = some run) :
    recursiveEncode tokens v = some { data := tokens.data ++ run } ∧
    (∀ stack, matchTags stack run = some stack) ∧
    matchTags [] run = some [] ∧
    countOpen run = countClose run := by
  have hbal := encode_balanced v run h
  refine ⟨?_, hbal, hbal [], ?_⟩
  · rw [recursiveEncode_eq, h]
    rfl
  · have := matchTags_counts run [] [] (hbal [])
    omega

/-- C20, at a map that holds a slice of a named pair and a struct, and a
boolean. -/
theorem recursiveEncode_balanced_witness :
    encode nestedValue =
      some [openTag "items",
              openTag "id", .CharData "7", closeTag "id",
              openTag "n", .CharData "a", closeTag "n",
              openTag "age", .CharData "3", closeTag "age",
            closeTag "items",
            openTag "ok", .CharData "true", closeTag "ok"] ∧
    matchTags [] [openTag "items",
              openTag "id", .CharData "7", closeTag "id",
              openTag "n", .CharData "a", closeTag "n",
              openTag "age", .CharData "3", closeTag "age",
            closeTag "items",
            openTag "ok", .CharData "true", closeTag "ok"] = some [] ∧
    countOpen [openTag "items",
              openTag "id", .CharData "7", closeTag "id",
              openTag "n", .CharData "a", closeTag "n",
              openTag "age", .CharData "3", closeTag "age",
            closeTag "items",
            openTag "ok", .CharData "true", closeTag "ok"] = 5 :=
  have h := recursiveEncode_balanced { data := [] } nestedValue _ (by decide :
    encode nestedValue =
      some [openTag "items",
              openTag "id", .CharData "7", closeTag "id",
              openTag "n", .CharData "a", closeTag "n",
              openTag "age", .CharData "3", closeTag "age",
            closeTag "items",
            openTag "ok", .CharData "true", closeTag "ok"])
  ⟨by decide, h.2.2.1, by decide⟩

end Gosoap
